import Mathlib

/- Shallow embedding of the deduplication and story-clustering engine of the
`daily-media-briefing` repository (`src/script_v1.py`), together with proofs
settling the specification claims C1..C10.

Modelling conventions:
* Python `dict` items become the record type `Item`; optional / possibly
  missing fields are `Option String`.
* Python strings are Lean `String`s; `len` is the number of code points,
  matching Python. `str.lower` is modelled by `Char.toLower` (ASCII folding;
  the inputs exercised by the claims are covered).
* Python floats (similarity values, thresholds) are modelled as rationals:
  only order comparisons with the threshold occur in the code.
* The sklearn TF-IDF vectorizer is an external library; `cluster_items`
  receives the similarity matrix it produces as an explicit argument
  `sim : Nat → Nat → ℚ`, exactly the interface the Grouper contract in the
  spec describes.  Whether the control flow reaches the vectorizer is
  mirrored by `vectorizer_invoked`.
* Mutable arrays (`_UnionFind.parent` / `rank`) are `List Nat` with
  functional update; the `while` loop of `find` runs on explicit fuel
  `parent.length`, which is proved sufficient for every reachable state.
-/

namespace Briefing

/-! ### Python string primitives (modelled character-list-wise) -/

/-- Python `str.strip()` (whitespace on both ends). -/
def pyStripL (l : List Char) : List Char :=
  ((l.dropWhile Char.isWhitespace).reverse.dropWhile Char.isWhitespace).reverse

/-- Python `str.strip()` on a `String`. -/
def pyStrip (s : String) : String :=
  String.mk (pyStripL s.data)

/-- Python `str.rstrip()` (trailing whitespace only). -/
def pyRStrip (s : String) : String :=
  String.mk ((s.data.reverse.dropWhile Char.isWhitespace).reverse)

/-- Python `s[:n]` on strings (code-point slicing). -/
def pyTake (s : String) (n : Nat) : String :=
  String.mk (s.data.take n)

/-- Helper for Python `str.split()`: cut a character list at whitespace runs,
accumulating the current word (reversed) in `acc`. -/
def wordsAux : List Char → List Char → List (List Char)
  | [], acc => if acc = [] then [] else [acc.reverse]
  | c :: cs, acc =>
    if c.isWhitespace then
      if acc = [] then wordsAux cs [] else acc.reverse :: wordsAux cs []
    else
      wordsAux cs (c :: acc)

/-- Python `str.split()` (split on whitespace runs, dropping empties). -/
def pyWords (s : String) : List (List Char) :=
  wordsAux s.data []

/-- Join character-list words with a single space: `" ".join(words)`. -/
def joinSpaceL : List (List Char) → List Char
  | [] => []
  | [w] => w
  | w :: ws => w ++ ' ' :: joinSpaceL ws

/-- Python `" ".join(s.split())`: collapse runs of whitespace. -/
def pyCollapseWs (s : String) : String :=
  String.mk (joinSpaceL (pyWords s))

/-- Python `" ".join(parts)` on strings. -/
def joinSpace (parts : List String) : String :=
  String.mk (joinSpaceL (parts.map String.data))

/-- Python `s.replace(pat, rep)` for a single-character pattern. -/
def replaceChar (s : String) (c : Char) (rep : String) : String :=
  String.mk (s.data.flatMap (fun ch => if ch = c then rep.data else [ch]))

/-! ### Data model

One ingested article record (a row of the `items` table / a Python dict).
Fields other than those used by the embedded functions are omitted. -/

structure Item where
  source : Option String := none
  title : Option String := none
  link : Option String := none
  published : Option String := none
  summary : Option String := none
  image_url : Option String := none
  paywall : Option String := none
  fetched_at : Option String := none
deriving DecidableEq, Repr, Inhabited

/-! ### `stable_id` (Dedup Key Generator, script_v1.py lines 93-99)

`hashlib.sha256` is implemented concretely below (FIPS 180-4), operating on
the UTF-8 bytes of the base string, producing the lowercase hex digest. -/

/-- UTF-8 encoding of one character as a list of byte values. -/
def utf8EncodeCharNat (c : Char) : List Nat :=
  let n := c.toNat
  if n < 0x80 then [n]
  else if n < 0x800 then
    [0xC0 ||| (n >>> 6), 0x80 ||| (n &&& 0x3F)]
  else if n < 0x10000 then
    [0xE0 ||| (n >>> 12), 0x80 ||| ((n >>> 6) &&& 0x3F), 0x80 ||| (n &&& 0x3F)]
  else
    [0xF0 ||| (n >>> 18), 0x80 ||| ((n >>> 12) &&& 0x3F),
     0x80 ||| ((n >>> 6) &&& 0x3F), 0x80 ||| (n &&& 0x3F)]

/-- UTF-8 bytes of a string (Python `s.encode("utf-8")`). -/
def utf8Bytes (s : String) : List Nat :=
  s.data.flatMap utf8EncodeCharNat

/-- Truncate to a 32-bit word. -/
def w32 (x : Nat) : Nat := x % 4294967296

/-- 32-bit right rotation (operand assumed `< 2^32`). -/
def rotr32 (x n : Nat) : Nat := w32 ((x >>> n) ||| (x <<< (32 - n)))

/-- SHA-256 round constants. -/
def sha256K : List Nat :=
  [1116352408, 1899447441, 3049323471, 3921009573, 961987163,
   1508970993, 2453635748, 2870763221, 3624381080, 310598401,
   607225278, 1426881987, 1925078388, 2162078206, 2614888103,
   3248222580, 3835390401, 4022224774, 264347078, 604807628,
   770255983, 1249150122, 1555081692, 1996064986, 2554220882,
   2821834349, 2952996808, 3210313671, 3336571891, 3584528711,
   113926993, 338241895, 666307205, 773529912, 1294757372,
   1396182291, 1695183700, 1986661051, 2177026350, 2456956037,
   2730485921, 2820302411, 3259730800, 3345764771, 3516065817,
   3600352804, 4094571909, 275423344, 430227734, 506948616,
   659060556, 883997877, 958139571, 1322822218, 1537002063,
   1747873779, 1955562222, 2024104815, 2227730452, 2361852424,
   2428436474, 2756734187, 3204031479, 3329325298]

/-- SHA-256 initial hash state. -/
def sha256H0 : List Nat :=
  [1779033703, 3144134277, 1013904242, 2773480762,
   1359893119, 2600822924, 528734635, 1541459225]

/-- Pad a byte message per SHA-256 (append `0x80`, zeros, 64-bit bit length). -/
def sha256Pad (msg : List Nat) : List Nat :=
  let len := msg.length
  let zeros := (64 + 56 - ((len + 1) % 64)) % 64
  let bitLen := 8 * len
  msg ++ [0x80] ++ List.replicate zeros 0 ++
    [w32 (bitLen >>> 56) % 256, (bitLen >>> 48) % 256, (bitLen >>> 40) % 256,
     (bitLen >>> 32) % 256, (bitLen >>> 24) % 256, (bitLen >>> 16) % 256,
     (bitLen >>> 8) % 256, bitLen % 256]

/-- Big-endian 32-bit words from bytes. -/
def bytesToWords : List Nat → List Nat
  | b0 :: b1 :: b2 :: b3 :: rest =>
    (b0 <<< 24 ||| b1 <<< 16 ||| b2 <<< 8 ||| b3) :: bytesToWords rest
  | _ => []

/-- Message-schedule extension from 16 words to 64 words. -/
def sha256Extend (ws : List Nat) (i : Nat) : List Nat :=
  match i with
  | 0 => ws
  | i + 1 =>
    let ws := sha256Extend ws i
    let j := ws.length
    let w15 := ws.getD (j - 15) 0
    let w2 := ws.getD (j - 2) 0
    let s0 := (rotr32 w15 7) ^^^ (rotr32 w15 18) ^^^ (w15 >>> 3)
    let s1 := (rotr32 w2 17) ^^^ (rotr32 w2 19) ^^^ (w2 >>> 10)
    ws ++ [w32 (ws.getD (j - 16) 0 + s0 + ws.getD (j - 7) 0 + s1)]

/-- One round of the SHA-256 compression function. -/
def sha256Round (st : List Nat) (kw : Nat × Nat) : List Nat :=
  match st with
  | [a, b, c, d, e, f, g, h] =>
    let s1 := (rotr32 e 6) ^^^ (rotr32 e 11) ^^^ (rotr32 e 25)
    let ch := (e &&& f) ^^^ ((4294967295 - e) &&& g)
    let temp1 := w32 (h + s1 + ch + kw.1 + kw.2)
    let s0 := (rotr32 a 2) ^^^ (rotr32 a 13) ^^^ (rotr32 a 22)
    let maj := (a &&& b) ^^^ (a &&& c) ^^^ (b &&& c)
    let temp2 := w32 (s0 + maj)
    [w32 (temp1 + temp2), a, b, c, w32 (d + temp1), e, f, g]
  | st => st

/-- Process one 64-byte block. -/
def sha256Block (h : List Nat) (block : List Nat) : List Nat :=
  let ws := sha256Extend (bytesToWords block) 48
  let st := (sha256K.zip ws).foldl sha256Round h
  (h.zip st).map (fun p => w32 (p.1 + p.2))

/-- Split into chunks of `s + 1` elements, with explicit structural fuel
(`fuel ≥ length` makes the fuel irrelevant since every step consumes at
least one element).  Shared by `chunk_list` and the SHA-256 block split. -/
def chunkFuel (s : Nat) : Nat → List α → List (List α)
  | 0, _ => []
  | _ + 1, [] => []
  | f + 1, x :: xs => (x :: List.take s xs) :: chunkFuel s f (List.drop s xs)

/-- SHA-256 digest (32 bytes) of a byte message. -/
def sha256Digest (msg : List Nat) : List Nat :=
  let padded := sha256Pad msg
  let hs := (chunkFuel 63 padded.length padded).foldl sha256Block sha256H0
  hs.flatMap (fun w => [(w >>> 24) % 256, (w >>> 16) % 256, (w >>> 8) % 256, w % 256])

/-- Lowercase hex character for a nibble. -/
def hexChar (d : Nat) : Char :=
  "0123456789abcdef".data.getD d '0'

/-- Lowercase hex string of a byte list (Python `hexdigest()`). -/
def hexOfBytes (bs : List Nat) : String :=
  String.mk (bs.flatMap (fun b => [hexChar (b >>> 4), hexChar (b &&& 15)]))

/-- `stable_id` (script_v1.py lines 93-99): sha256 hex digest of
`f"{source_name}||{link or ''}||{title or ''}".strip()`.  `link`/`title` are
`Option String` so that Python `None` and `""` can both be passed. -/
def stable_id (source_name : String) (link : Option String) (title : Option String) : String :=
  let base := pyStrip (source_name ++ "||" ++ link.getD "" ++ "||" ++ title.getD "")
  hexOfBytes (sha256Digest (utf8Bytes base))

/-! ### `chunk_list` (script_v1.py lines 29-30) and the Paginator
(script_v1.py lines 679-718, inside `main`) -/

/-- `chunk_list(xs, size) = [xs[i:i+size] for i in range(0, len(xs), size)]`.
`size = 0` raises `ValueError` in Python (never called that way); modelled as
producing no pages. -/
def chunk_list (xs : List α) (size : Nat) : List (List α) :=
  match size with
  | 0 => []
  | s + 1 => chunkFuel s xs.length xs

/-- One rendered topic page, as assembled by the pagination loop in `main`. -/
structure PageOut (α : Type) where
  number : Nat
  out_name : String
  stories : List α
  n_pages : Nat
  next_url : Option String
  prev_url : Option String
deriving Repr, DecidableEq

instance : Inhabited (PageOut α) :=
  ⟨⟨0, "", [], 0, none, none⟩⟩

/-- The body of the pagination loop of `main` for the 0-based page index `k`
(`page_idx = k + 1`): the page's stories, output file name and next/previous
links. -/
def pageFun (topic : String) (pages : List (List α)) (k : Nat) : PageOut α :=
  let idx := k + 1
  { number := idx
    out_name :=
      if idx = 1 then "site/topics/" ++ topic ++ ".html"
      else "site/topics/" ++ topic ++ "_p" ++ toString idx ++ ".html"
    stories := pages.getD k []
    n_pages := pages.length
    next_url :=
      if idx < pages.length then some (topic ++ "_p" ++ toString (idx + 1) ++ ".html")
      else none
    prev_url :=
      if 1 < idx then
        some (if idx = 2 then topic ++ ".html"
              else topic ++ "_p" ++ toString (idx - 1) ++ ".html")
      else none }

/-- The pagination loop of `main`:
`pages = chunk_list(combined, PAGE_SIZE)[:MAX_PAGES]`, then for
`page_idx = 1..len(pages)` emit the page together with its output file name
and next/previous links. -/
def paginate (topic : String) (stories : List α) (page_size max_pages : Nat) :
    List (PageOut α) :=
  let pages := (chunk_list stories page_size).take max_pages
  (List.range pages.length).map (pageFun topic pages)

/-! ### Normalizer (script_v1.py lines 394-405) -/

/-- The fixed punctuation/dash/quote set replaced by spaces. -/
def punctChars : List Char :=
  ['-', '–', '—', ':', '|', '•', '“', '”', '"', '\'', '’']

/-- `_normalize_de_text` (script_v1.py lines 394-400): lowercase, fold `ß` to
`ss`, replace the punctuation set with spaces, collapse whitespace.
Python `str.lower()` is full-Unicode; `Char.toLower` folds ASCII letters,
which covers the character classes the remaining pipeline distinguishes. -/
def _normalize_de_text (s : String) : String :=
  let s := String.mk (s.data.map Char.toLower)
  let s := replaceChar s 'ß' "ss"
  let s := punctChars.foldl (fun acc c => replaceChar acc c " ") s
  pyCollapseWs s

/-- `_build_story_text` (script_v1.py lines 402-405):
`f"{title}. {summary}".strip()` over the normalized fields. -/
def _build_story_text (item : Item) : String :=
  let title := _normalize_de_text (item.title.getD "")
  let summary := _normalize_de_text (item.summary.getD "")
  pyStrip (title ++ ". " ++ summary)

/-! ### `_shorten` (script_v1.py lines 408-412) -/

/-- `_shorten(text, max_len=180)`: collapse whitespace; if within budget
return as-is, else cut at `max_len - 1`, strip trailing whitespace and append
a single ellipsis character. -/
def _shorten (text : String) (max_len : Nat := 180) : String :=
  let text := pyCollapseWs text
  if text.length ≤ max_len then text
  else pyRStrip (pyTake text (max_len - 1)) ++ "…"

/-! ### `_UnionFind` (script_v1.py lines 415-437)

`parent` and `rank` are the two flat arrays; `find` does path halving inside
a `while` loop, modelled with explicit fuel `parent.length` (proved
sufficient for all reachable states in the lemmas below). -/

/-- `parent[x]` with the out-of-range convention `pf p x = x` (in the code
all accesses are in range). -/
def pf (p : List Nat) (x : Nat) : Nat := p.getD x x

/-- One `while` iteration of `find`:
`self.parent[x] = self.parent[self.parent[x]]; x = self.parent[x]`.
Returns the final parent array and the found root. -/
def findAux : Nat → List Nat → Nat → List Nat × Nat
  | 0, p, x => (p, x)
  | fuel + 1, p, x =>
    if pf p x = x then (p, x)
    else findAux fuel (p.set x (pf p (pf p x))) (pf p (pf p x))

structure _UnionFind where
  parent : List Nat
  rank : List Nat
deriving Repr, DecidableEq

/-- `_UnionFind.__init__(n)`: `parent = list(range(n))`, `rank = [0] * n`. -/
def _UnionFind.init (n : Nat) : _UnionFind :=
  ⟨List.range n, List.replicate n 0⟩

/-- `_UnionFind.find(x)` (mutates `parent`; returns the updated structure and
the root). -/
def _UnionFind.find (uf : _UnionFind) (x : Nat) : _UnionFind × Nat :=
  let pr := findAux uf.parent.length uf.parent x
  (⟨pr.1, uf.rank⟩, pr.2)

/-- `_UnionFind.union(a, b)` (script_v1.py lines 426-436): two `find` calls
(the first mutates the state seen by the second), then union by rank. -/
def _UnionFind.union (uf : _UnionFind) (a b : Nat) : _UnionFind :=
  let pr1 := uf.find a
  let uf1 := pr1.1
  let ra := pr1.2
  let pr2 := uf1.find b
  let uf2 := pr2.1
  let rb := pr2.2
  if ra = rb then uf2
  else if uf2.rank.getD ra 0 < uf2.rank.getD rb 0 then
    { uf2 with parent := uf2.parent.set ra rb }
  else if uf2.rank.getD rb 0 < uf2.rank.getD ra 0 then
    { uf2 with parent := uf2.parent.set rb ra }
  else
    { parent := uf2.parent.set rb ra,
      rank := uf2.rank.set ra (uf2.rank.getD ra 0 + 1) }

/-! ### `cluster_items` (script_v1.py lines 439-478) -/

/-- All index pairs `(i, j)` with `i < j < n`, in the iteration order of the
nested `for i in range(n): for j in range(i+1, n)` loops. -/
def allPairs (n : Nat) : List (Nat × Nat) :=
  (List.range n).flatMap (fun i => (List.range' (i + 1) (n - (i + 1))).map (fun j => (i, j)))

/-- The union loop: `if sim[i, j] >= threshold: uf.union(i, j)` folded over
the pair list. -/
def applyUnions (sim : Nat → Nat → ℚ) (threshold : ℚ) (uf : _UnionFind)
    (ps : List (Nat × Nat)) : _UnionFind :=
  ps.foldl (fun u pr => if threshold ≤ sim pr.1 pr.2 then u.union pr.1 pr.2 else u) uf

/-- `groups.setdefault(r, []).append(i)` on an insertion-ordered association
list. -/
def addToGroup (gs : List (Nat × List Nat)) (r i : Nat) : List (Nat × List Nat) :=
  match gs with
  | [] => [(r, [i])]
  | (k, l) :: rest =>
    if k = r then (k, l ++ [i]) :: rest else (k, l) :: addToGroup rest r i

/-- The grouping loop `for i in range(n): r = uf.find(i); ...` — each `find`
call mutates the union-find state that the next iteration sees. -/
def groupLoop : List Nat → _UnionFind → List (Nat × List Nat) →
    _UnionFind × List (Nat × List Nat)
  | [], uf, gs => (uf, gs)
  | i :: is, uf, gs =>
    let pr := uf.find i
    groupLoop is pr.1 (addToGroup gs pr.2 i)

/-- Index-level Grouper output (before projecting back to items and before
the size sort): the values of the insertion-ordered `groups` dict after
running the union loop over all pairs and the grouping loop. -/
def cluster_groups (n : Nat) (sim : Nat → Nat → ℚ) (threshold : ℚ) : List (List Nat) :=
  let uf := applyUnions sim threshold (_UnionFind.init n) (allPairs n)
  ((groupLoop (List.range n) uf []).2).map Prod.snd

/-- Stable insertion into a list sorted descending under `ge` (earlier
elements beat later equal ones because `ge` is reflexive). -/
def insertGe (ge : α → α → Bool) (x : α) : List α → List α
  | [] => [x]
  | y :: ys => if ge x y then x :: y :: ys else y :: insertGe ge x ys

/-- Stable descending sort; extensionally equal to Python's stable
`list.sort` / `sorted` for the total preorder described by `ge`. -/
def sortGe (ge : α → α → Bool) : List α → List α
  | [] => []
  | x :: xs => insertGe ge x (sortGe ge xs)

/-- `cluster_items(items, threshold=..., stop_words=...)` — the similarity
matrix `sim` is the output of the external TF-IDF vectorizer, passed in
explicitly.  Mirrors the two edge-case branches, the union loop, grouping by
root, projection to items, and `clusters.sort(key=len, reverse=True)`. -/
def cluster_items (items : List Item) (sim : Nat → Nat → ℚ) (threshold : ℚ) :
    List (List Item) :=
  if items = [] then []
  else if ∀ t ∈ items.map _build_story_text, t = "" then items.map (fun it => [it])
  else
    sortGe (fun c d => d.length ≤ c.length)
      ((cluster_groups items.length sim threshold).map
        (fun g => g.map (fun i => items.getD i default)))

/-- True exactly when the control flow of `cluster_items` reaches the
`TfidfVectorizer` construction (i.e. neither early return is taken). -/
def vectorizer_invoked (items : List Item) : Bool :=
  !(items = [] : Bool) && !decide (∀ t ∈ items.map _build_story_text, t = "")

/-! ### `story_title_for_cluster` (script_v1.py lines 481-498) -/

/-- The sort key `(min(len(t), 120), len(t))`. -/
def titleKey (t : String) : Nat × Nat := (min t.length 120, t.length)

/-- Lexicographic `≥` on title keys (descending sort with `reverse=True`). -/
def titleGe (t u : String) : Bool :=
  decide ((titleKey u).1 < (titleKey t).1 ∨
    ((titleKey t).1 = (titleKey u).1 ∧ (titleKey u).2 ≤ (titleKey t).2))

/-- `story_title_for_cluster(cluster)`: a single item returns its title (or
`"Untitled story"` when falsy); otherwise strip titles, drop empties and take
the head of the stable descending sort by `titleKey`. -/
def story_title_for_cluster (cluster : List Item) : String :=
  if cluster.length = 1 then
    let t := (cluster.headD default).title.getD ""
    if t = "" then "Untitled story" else t
  else
    let titles := (cluster.map (fun it => pyStrip (it.title.getD ""))).filter (fun t => t ≠ "")
    if titles = [] then "Untitled story"
    else (sortGe titleGe titles).headD "Untitled story"

/-! ### `story_summary_for_cluster` (script_v1.py lines 501-526) -/

/-- The snippet-collection loop, instrumented to also record the (stripped)
source of each accepted snippet; the code's `picked` list is the `Prod.snd`
projection (proved below).  `seen` is the `seen_sources` set. -/
def summaryLoopSrc (max_sentences : Nat) :
    List Item → List (String × String) → List String → List (String × String)
  | [], picked, _ => picked
  | it :: rest, picked, seen =>
    let src := pyStrip (it.source.getD "")
    let snip := pyStrip (it.summary.getD "")
    if snip = "" then summaryLoopSrc max_sentences rest picked seen
    else if src ≠ "" ∧ src ∈ seen then summaryLoopSrc max_sentences rest picked seen
    else
      let picked' := picked ++ [(src, _shorten snip 180)]
      if max_sentences ≤ picked'.length then picked'
      else summaryLoopSrc max_sentences rest picked' (src :: seen)

/-- The snippet-collection loop exactly as in the code (snippet strings
only). -/
def summaryLoop (max_sentences : Nat) : List Item → List String → List String → List String
  | [], picked, _ => picked
  | it :: rest, picked, seen =>
    let src := pyStrip (it.source.getD "")
    let snip := pyStrip (it.summary.getD "")
    if snip = "" then summaryLoop max_sentences rest picked seen
    else if src ≠ "" ∧ src ∈ seen then summaryLoop max_sentences rest picked seen
    else
      let picked' := picked ++ [_shorten snip 180]
      if max_sentences ≤ picked'.length then picked'
      else summaryLoop max_sentences rest picked' (src :: seen)

/-- `story_summary_for_cluster(cluster, max_sentences=3)`: collect snippets;
if none, fall back to the first `max_sentences` titles shortened to 160;
join with single spaces and strip. -/
def story_summary_for_cluster (cluster : List Item) (max_sentences : Nat := 3) : String :=
  let picked := summaryLoop max_sentences cluster [] []
  let picked :=
    if picked = [] then
      (cluster.take max_sentences).map (fun it => _shorten (it.title.getD "") 160)
    else picked
  pyStrip (joinSpace picked)

/-- The summary loop as the claim words it (C5): at most one snippet per
distinct source with no exemption for empty sources.  Used only to exhibit
the divergence from the code. -/
def claimSummaryLoop (max_sentences : Nat) :
    List Item → List String → List String → List String
  | [], picked, _ => picked
  | it :: rest, picked, seen =>
    let src := pyStrip (it.source.getD "")
    let snip := pyStrip (it.summary.getD "")
    if snip = "" then claimSummaryLoop max_sentences rest picked seen
    else if src ∈ seen then claimSummaryLoop max_sentences rest picked seen
    else
      let picked' := picked ++ [_shorten snip 180]
      if max_sentences ≤ picked'.length then picked'
      else claimSummaryLoop max_sentences rest picked' (src :: seen)

/-- C5's claimed summary function (identical to the code except for the
per-source skip condition). -/
def claim_story_summary (cluster : List Item) (max_sentences : Nat := 3) : String :=
  let picked := claimSummaryLoop max_sentences cluster [] []
  let picked :=
    if picked = [] then
      (cluster.take max_sentences).map (fun it => _shorten (it.title.getD "") 160)
    else picked
  pyStrip (joinSpace picked)

/-! ### `balance_items_by_source` (script_v1.py lines 579-594) -/

/-- `it.get("source") or "unknown"`. -/
def srcOf (it : Item) : String :=
  if it.source.getD "" = "" then "unknown" else it.source.getD ""

/-- The balancing loop; `counts` is the running per-source counter dict and
`outLen` the current `len(out)`.  Note the total cap is checked after
appending, exactly as in the code. -/
def balanceAux (per_source total : Nat) : List Item → (String → Nat) → Nat → List Item
  | [], _, _ => []
  | it :: rest, counts, outLen =>
    let src := srcOf it
    if per_source ≤ counts src then balanceAux per_source total rest counts outLen
    else if total ≤ outLen + 1 then [it]
    else
      it :: balanceAux per_source total rest
        (fun s => if s = src then counts s + 1 else counts s) (outLen + 1)

/-- `balance_items_by_source(items, per_source=8, total=60)`. -/
def balance_items_by_source (items : List Item) (per_source : Nat := 8)
    (total : Nat := 60) : List Item :=
  balanceAux per_source total items (fun _ => 0) 0

/-! ### Union-find theory: roots, reachability, invariants -/

/-- `k`-fold parent iteration. -/
def iterP (p : List Nat) : Nat → Nat → Nat
  | 0, x => x
  | k + 1, x => iterP p k (pf p x)

/-- `x` is a root: `parent[x] == x`. -/
def isRoot (p : List Nat) (x : Nat) : Prop := pf p x = x

instance (p : List Nat) (x : Nat) : Decidable (isRoot p x) :=
  inferInstanceAs (Decidable (pf p x = x))

/-- `r` is the root of the tree containing `x`: following parent pointers
from `x` reaches `r`, and `parent[r] == r`. -/
def Rooted (p : List Nat) (x r : Nat) : Prop :=
  isRoot p r ∧ ∃ k, iterP p k x = r

/-- The forest invariant: the parent array is closed over `0..n-1` and every
chain of parent pointers reaches a root (acyclicity). -/
def WF (p : List Nat) : Prop :=
  (∀ x, x < p.length → pf p x < p.length) ∧ (∀ x, ∃ r, Rooted p x r)

/-- Canonical root assignment computed by a (fuel-bounded) find. -/
def rootD (p : List Nat) (x : Nat) : Nat := (findAux p.length p x).2

/-- Two indices lie in the same union-find class. -/
def EquivUF (p : List Nat) (y z : Nat) : Prop :=
  ∃ r, Rooted p y r ∧ Rooted p z r

/-- The states of `_UnionFind` reachable from `__init__(n)` by `find` and
`union` calls on valid indices. -/
inductive Reachable (n : Nat) : _UnionFind → Prop
  | init : Reachable n (_UnionFind.init n)
  | find {uf : _UnionFind} {x : Nat} : Reachable n uf → x < n →
      Reachable n (uf.find x).1
  | union {uf : _UnionFind} {a b : Nat} : Reachable n uf → a < n → b < n →
      Reachable n (uf.union a b)

/-! ### Claim-side specification definitions -/

/-- C1's connectivity: a path `i = k0, k1, ..., km = j` whose consecutive
pairs are distinct valid indices of pairwise similarity at least the
threshold. -/
def SimPath (n : Nat) (sim : Nat → Nat → ℚ) (t : ℚ) : Nat → Nat → Prop :=
  Relation.ReflTransGen (fun u v => u ≠ v ∧ u < n ∧ v < n ∧ t ≤ sim u v)

/-- The edge relation actually examined by the union loop: only entries
`sim i j` with `i < j` are read. -/
def AdjI (n : Nat) (sim : Nat → Nat → ℚ) (t : ℚ) (u v : Nat) : Prop :=
  (u < v ∧ v < n ∧ t ≤ sim u v) ∨ (v < u ∧ u < n ∧ t ≤ sim v u)

/-- Two indices lie in a common cluster of a cluster list. -/
def inSameCluster (gs : List (List Nat)) (i j : Nat) : Prop :=
  ∃ g ∈ gs, i ∈ g ∧ j ∈ g

/-- C4's selection, as the claim words it: the earliest title maximizing
`titleKey` (ties broken by list order). -/
def bestTitle : List String → Option String
  | [] => none
  | t :: ts =>
    match bestTitle ts with
    | none => some t
    | some u => if titleGe t u then some t else some u

/-- The symmetric edge relation contributed by a list of examined pairs:
pair `(u, v)` produces an edge iff `sim u v` (as read by the loop) reaches
the threshold. -/
def edgeIn (sim : Nat → Nat → ℚ) (t : ℚ) (ps : List (Nat × Nat)) (u v : Nat) : Prop :=
  ((u, v) ∈ ps ∧ t ≤ sim u v) ∨ ((v, u) ∈ ps ∧ t ≤ sim v u)

/-- The tail of `union` after both `find` calls, as a function of the parent
array `p2` and rank array `rk` seen at that point and the two roots: the
early return on equal roots and the three union-by-rank branches.
`uCore ((uf.find a).1.find b).1.parent uf.rank (uf.find a).2 ((uf.find a).1.find b).2`
is definitionally `uf.union a b`. -/
def uCore (p2 rk : List Nat) (ra rb : Nat) : _UnionFind :=
  if ra = rb then ⟨p2, rk⟩
  else if rk.getD ra 0 < rk.getD rb 0 then ⟨p2.set ra rb, rk⟩
  else if rk.getD rb 0 < rk.getD ra 0 then ⟨p2.set rb ra, rk⟩
  else ⟨p2.set rb ra, rk.set ra (rk.getD ra 0 + 1)⟩

/-- Lookup in an insertion-ordered association list (the value of
`groups[r]`, `[]` when the key is absent). -/
def gVal (gs : List (Nat × List Nat)) (r : Nat) : List Nat :=
  match gs with
  | [] => []
  | (k, l) :: rest => if k = r then l else gVal rest r

/-! ## Lemmas and claim theorems -/

/-! ### Source Balancer (C3) -/

theorem balanceAux_sublist (ps tot : Nat) :
    ∀ (items : List Item) (counts : String → Nat) (outLen : Nat),
      (balanceAux ps tot items counts outLen).Sublist items := by
  intro items
  induction items with
  | nil => intro counts outLen; simp [balanceAux]
  | cons it rest ih =>
    intro counts outLen
    simp only [balanceAux]
    split
    · exact (ih _ _).trans (List.sublist_cons_self it rest)
    · split
      · exact List.singleton_sublist.mpr (List.mem_cons_self it rest)
      · exact List.cons_sublist_cons.mpr (ih _ _)

theorem balanceAux_count (ps tot : Nat) (s : String) :
    ∀ (items : List Item) (counts : String → Nat) (outLen : Nat),
      (balanceAux ps tot items counts outLen).countP (fun it => srcOf it = s) ≤
        ps - counts s := by
  intro items
  induction items with
  | nil => intro counts outLen; simp [balanceAux]
  | cons it rest ih =>
    intro counts outLen
    simp only [balanceAux]
    split
    · exact ih _ _
    · rename_i hlt
      push_neg at hlt
      split
      · by_cases hs : srcOf it = s
        · rw [hs] at hlt
          simp [List.countP_cons, hs]
          omega
        · simp [List.countP_cons, hs]
      · by_cases hs : srcOf it = s
        · subst hs
          have h2 := ih (fun t => if t = srcOf it then counts t + 1 else counts t) (outLen + 1)
          simp only [eq_self_iff_true, if_true] at h2
          simp [List.countP_cons]
          omega
        · have h2 := ih (fun t => if t = srcOf it then counts t + 1 else counts t) (outLen + 1)
          have hne : s ≠ srcOf it := fun h => hs h.symm
          simp only [if_neg hne] at h2
          simp [List.countP_cons, hs]
          omega

theorem balanceAux_length (ps tot : Nat) :
    ∀ (items : List Item) (counts : String → Nat) (outLen : Nat), outLen < tot →
      (balanceAux ps tot items counts outLen).length + outLen ≤ tot := by
  intro items
  induction items with
  | nil => intro counts outLen h; simp [balanceAux]; omega
  | cons it rest ih =>
    intro counts outLen h
    simp only [balanceAux]
    split
    · exact ih _ _ h
    · split
      · simp; omega
      · rename_i hlt
        have := ih (fun t => if t = srcOf it then counts t + 1 else counts t) (outLen + 1)
          (by omega)
        simp only [List.length_cons]
        omega

/-- C3 (amended): for every item list, per-source cap `k` and total cap
`m ≥ 1`, the balancer returns a subsequence of the input (left-to-right
scan) in which no source appears more than `k` times and whose length is at
most `m`.  (For `m = 0` the code still emits the first accepted item, see
the counterexample.) -/
theorem balance_items_by_source_caps (items : List Item) (k m : Nat) (hm : 1 ≤ m) :
    (∀ s : String,
      (balance_items_by_source items k m).countP (fun it => srcOf it = s) ≤ k) ∧
    (balance_items_by_source items k m).length ≤ m ∧
    (balance_items_by_source items k m).Sublist items := by
  refine ⟨fun s => ?_, ?_, balanceAux_sublist k m items _ 0⟩
  · have := balanceAux_count k m s items (fun _ => 0) 0
    simpa using this
  · have := balanceAux_length k m items (fun _ => 0) 0 (by omega)
    simpa using this

theorem balance_items_by_source_caps_witness :
    (1 : Nat) ≤ 2 ∧
    ((∀ s : String,
      (balance_items_by_source
        [{ source := some "A" }, { source := some "A" }, { source := some "B" }]
        1 2).countP (fun it => srcOf it = s) ≤ 1) ∧
    (balance_items_by_source
        [{ source := some "A" }, { source := some "A" }, { source := some "B" }]
        1 2).length ≤ 2 ∧
    (balance_items_by_source
        [{ source := some "A" }, { source := some "A" }, { source := some "B" }]
        1 2).Sublist
        [{ source := some "A" }, { source := some "A" }, { source := some "B" }]) :=
  ⟨by decide,
   balance_items_by_source_caps
     [{ source := some "A" }, { source := some "A" }, { source := some "B" }] 1 2
     (by decide)⟩

/-- C3 counterexample: with `total = 0` the first accepted item is still
emitted, so the output length exceeds the total cap. -/
theorem balance_items_by_source_total_zero :
    ¬ ((balance_items_by_source [{ source := some "A" }] 8 0).length ≤ 0) := by
  decide

/-! ### Paginator (C9) -/

theorem chunkFuel_eq_nil_iff (s f : Nat) (xs : List α) (h : xs.length ≤ f) :
    chunkFuel s f xs = [] ↔ xs = [] := by
  cases f with
  | zero =>
    cases xs with
    | nil => simp [chunkFuel]
    | cons a l => simp at h
  | succ f =>
    cases xs with
    | nil => simp [chunkFuel]
    | cons a l => simp [chunkFuel]

theorem chunkFuel_flatten (s : Nat) :
    ∀ (f : Nat) (xs : List α), xs.length ≤ f → (chunkFuel s f xs).flatten = xs := by
  intro f
  induction f with
  | zero =>
    intro xs h
    have : xs = [] := List.eq_nil_of_length_eq_zero (Nat.le_zero.mp h)
    subst this; simp [chunkFuel]
  | succ f ih =>
    intro xs h
    match xs with
    | [] => simp [chunkFuel]
    | x :: xs =>
      have hlen : (List.drop s xs).length ≤ f := by
        simp only [List.length_cons] at h
        have := List.length_drop s xs
        omega
      simp only [chunkFuel, List.flatten_cons, ih _ hlen]
      simp [List.take_append_drop]

theorem chunkFuel_mem (s : Nat) :
    ∀ (f : Nat) (xs : List α), xs.length ≤ f →
      ∀ c ∈ chunkFuel s f xs, c ≠ [] ∧ c.length ≤ s + 1 := by
  intro f
  induction f with
  | zero =>
    intro xs h
    have : xs = [] := List.eq_nil_of_length_eq_zero (Nat.le_zero.mp h)
    subst this; simp [chunkFuel]
  | succ f ih =>
    intro xs h c hc
    match xs with
    | [] => simp [chunkFuel] at hc
    | x :: xs =>
      simp only [chunkFuel, List.mem_cons] at hc
      rcases hc with rfl | hc
      · refine ⟨by simp, ?_⟩
        have := List.length_take s xs
        simp only [List.length_cons]
        omega
      · have hlen : (List.drop s xs).length ≤ f := by
          simp only [List.length_cons] at h
          have := List.length_drop s xs
          omega
        exact ih _ hlen c hc

theorem chunkFuel_getD_full (s : Nat) :
    ∀ (f : Nat) (xs : List α) (i : Nat), xs.length ≤ f →
      i + 1 < (chunkFuel s f xs).length → ((chunkFuel s f xs).getD i []).length = s + 1 := by
  intro f
  induction f with
  | zero =>
    intro xs i h
    have : xs = [] := List.eq_nil_of_length_eq_zero (Nat.le_zero.mp h)
    subst this; simp [chunkFuel]
  | succ f ih =>
    intro xs i h hi
    match xs with
    | [] => simp [chunkFuel] at hi
    | x :: xs =>
      have hlen : (List.drop s xs).length ≤ f := by
        simp only [List.length_cons] at h
        have := List.length_drop s xs
        omega
      match i with
      | 0 =>
        simp only [chunkFuel, List.length_cons] at hi ⊢
        have hne : chunkFuel s f (List.drop s xs) ≠ [] := by
          intro hemp; rw [hemp] at hi; simp at hi
        have hdrop : List.drop s xs ≠ [] := by
          intro hd; exact hne ((chunkFuel_eq_nil_iff s f _ hlen).mpr hd)
        have hs : s < xs.length := by
          by_contra hle
          exact hdrop (List.drop_eq_nil_of_le (by omega))
        simp only [List.getD_eq_getElem?_getD, List.getElem?_cons_zero, Option.getD_some]
        have := List.length_take s xs
        simp only [List.length_cons]
        omega
      | i + 1 =>
        simp only [chunkFuel, List.length_cons] at hi ⊢
        simp only [List.getD_eq_getElem?_getD, List.getElem?_cons_succ]
        have := ih (List.drop s xs) i hlen (by omega)
        simpa [List.getD_eq_getElem?_getD] using this

theorem chunkFuel_take_flatten (s : Nat) :
    ∀ (f : Nat) (xs : List α) (m : Nat), xs.length ≤ f →
      (((chunkFuel s f xs).take m).flatten) = xs.take ((s + 1) * m) := by
  intro f
  induction f with
  | zero =>
    intro xs m h
    have : xs = [] := List.eq_nil_of_length_eq_zero (Nat.le_zero.mp h)
    subst this; simp [chunkFuel]
  | succ f ih =>
    intro xs m h
    match xs with
    | [] => simp [chunkFuel]
    | x :: xs =>
      match m with
      | 0 => simp
      | m + 1 =>
        have hlen : (List.drop s xs).length ≤ f := by
          simp only [List.length_cons] at h
          have := List.length_drop s xs
          omega
        show ((chunkFuel s (f + 1) (x :: xs)).take (m + 1)).flatten =
          (x :: xs).take ((s + 1) * (m + 1))
        rw [show chunkFuel s (f + 1) (x :: xs) =
          (x :: List.take s xs) :: chunkFuel s f (List.drop s xs) from rfl]
        rw [List.take_succ_cons, List.flatten_cons, ih _ m hlen]
        have harith : (s + 1) * (m + 1) = (s + 1) + (s + 1) * m := by ring
        rw [harith, List.take_add, List.take_succ_cons, List.drop_succ_cons]

theorem map_range_getD (n : Nat) (f : Nat → β) (d : β) (i : Nat) (h : i < n) :
    (((List.range n).map f).getD i d) = f i := by
  simp [List.getD_eq_getElem?_getD, List.getElem?_range h]

theorem map_range_getD_self (l : List β) (d : β) :
    (List.range l.length).map (fun k => l.getD k d) = l := by
  apply List.ext_getElem
  · simp
  · intro i h1 h2
    simp only [List.getElem_map, List.getElem_range]
    simp [List.getD_eq_getElem?_getD, List.getElem?_eq_getElem h2]

theorem getD_mem_of_lt (l : List β) (d : β) (i : Nat) (h : i < l.length) :
    l.getD i d ∈ l := by
  rw [List.getD_eq_getElem?_getD, List.getElem?_eq_getElem h, Option.getD_some]
  exact List.getElem_mem h

/-- C9: the Paginator cuts the story list into consecutive pages of exactly
`page_size` stories (the last kept page may be shorter), keeps at most
`max_pages` pages dropping the rest, numbers pages from 1, gives every page
except the last a next link and every page except page 1 a previous link,
and page 2's previous link is the topic's canonical un-suffixed page. -/
theorem paginate_spec (topic : String) (stories : List α) (psz mp : Nat)
    (hpsz : 1 ≤ psz) :
    (paginate topic stories psz mp).length ≤ mp ∧
    ((paginate topic stories psz mp).map PageOut.stories).flatten =
      stories.take (psz * mp) ∧
    (∀ p ∈ paginate topic stories psz mp, p.stories ≠ [] ∧ p.stories.length ≤ psz) ∧
    (∀ i, i + 1 < (paginate topic stories psz mp).length →
      ((paginate topic stories psz mp).getD i default).stories.length = psz) ∧
    (∀ i, i < (paginate topic stories psz mp).length →
      ((paginate topic stories psz mp).getD i default).number = i + 1 ∧
      (((paginate topic stories psz mp).getD i default).next_url = none ↔
        i + 1 = (paginate topic stories psz mp).length) ∧
      (((paginate topic stories psz mp).getD i default).prev_url = none ↔ i = 0)) ∧
    (2 ≤ (paginate topic stories psz mp).length →
      ((paginate topic stories psz mp).getD 1 default).prev_url =
        some (topic ++ ".html")) := by
  obtain ⟨s, rfl⟩ : ∃ s, psz = s + 1 := ⟨psz - 1, by omega⟩
  have hflat : ((chunkFuel s stories.length stories).take mp).flatten = stories.take ((s + 1) * mp) :=
    chunkFuel_take_flatten s stories.length stories mp le_rfl
  have hmemc : ∀ c ∈ (chunkFuel s stories.length stories).take mp, c ≠ [] ∧ c.length ≤ s + 1 :=
    fun c hc => chunkFuel_mem s stories.length stories le_rfl c (List.mem_of_mem_take hc)
  have hfull : ∀ i, i + 1 < ((chunkFuel s stories.length stories).take mp).length →
      (((chunkFuel s stories.length stories).take mp).getD i []).length = s + 1 := by
    intro i hi
    have h1 : ((chunkFuel s stories.length stories).take mp).length ≤ (chunkFuel s stories.length stories).length := by
      rw [List.length_take]; exact min_le_right _ _
    have h2 : i < mp := by
      have := List.length_take mp (chunkFuel s stories.length stories)
      omega
    rw [List.getD_eq_getElem?_getD, List.getElem?_take, if_pos h2,
      ← List.getD_eq_getElem?_getD]
    exact chunkFuel_getD_full s stories.length stories i le_rfl (by omega)
  have hlentake : ((chunkFuel s stories.length stories).take mp).length ≤ mp := by
    rw [List.length_take]; exact min_le_left _ _
  simp only [paginate, chunk_list]
  generalize (chunkFuel s stories.length stories).take mp = P at hflat hmemc hfull hlentake ⊢
  have hL : ((List.range P.length).map (pageFun topic P)).length = P.length := by simp
  refine ⟨?_, ?_, ?_, ?_, ?_, ?_⟩
  · rw [hL]; exact hlentake
  · rw [List.map_map]
    have hco : (PageOut.stories ∘ pageFun topic P) = fun k => P.getD k [] := rfl
    rw [hco, map_range_getD_self]
    exact hflat
  · intro p hp
    simp only [List.mem_map, List.mem_range] at hp
    obtain ⟨k, hk, rfl⟩ := hp
    have hst : (pageFun topic P k).stories = P.getD k [] := rfl
    rw [hst]
    exact hmemc _ (getD_mem_of_lt P [] k hk)
  · intro i hi
    rw [hL] at hi
    rw [map_range_getD _ _ _ _ (by omega)]
    have hst : (pageFun topic P i).stories = P.getD i [] := rfl
    rw [hst]
    exact hfull i hi
  · intro i hi
    rw [hL] at hi
    rw [map_range_getD _ _ _ _ hi]
    rw [hL]
    refine ⟨rfl, ?_, ?_⟩
    · simp only [pageFun]
      by_cases h : i + 1 < P.length
      · simp [h]; omega
      · simp [h]; omega
    · simp only [pageFun]
      by_cases h : 1 < i + 1
      · simp [h]; omega
      · simp [h]; omega
  · intro h2
    rw [hL] at h2
    rw [map_range_getD _ _ _ _ (by omega)]
    simp [pageFun]

theorem paginate_spec_witness :
    (1 : Nat) ≤ 2 ∧
    ((paginate "t" [1, 2, 3, 4, 5] 2 3).length ≤ 3 ∧
    ((paginate "t" [1, 2, 3, 4, 5] 2 3).map PageOut.stories).flatten =
      [1, 2, 3, 4, 5].take (2 * 3) ∧
    (∀ p ∈ paginate "t" [1, 2, 3, 4, 5] 2 3, p.stories ≠ [] ∧ p.stories.length ≤ 2) ∧
    (∀ i, i + 1 < (paginate "t" [1, 2, 3, 4, 5] 2 3).length →
      ((paginate "t" [1, 2, 3, 4, 5] 2 3).getD i default).stories.length = 2) ∧
    (∀ i, i < (paginate "t" [1, 2, 3, 4, 5] 2 3).length →
      ((paginate "t" [1, 2, 3, 4, 5] 2 3).getD i default).number = i + 1 ∧
      (((paginate "t" [1, 2, 3, 4, 5] 2 3).getD i default).next_url = none ↔
        i + 1 = (paginate "t" [1, 2, 3, 4, 5] 2 3).length) ∧
      (((paginate "t" [1, 2, 3, 4, 5] 2 3).getD i default).prev_url = none ↔ i = 0)) ∧
    (2 ≤ (paginate "t" [1, 2, 3, 4, 5] 2 3).length →
      ((paginate "t" [1, 2, 3, 4, 5] 2 3).getD 1 default).prev_url =
        some ("t" ++ ".html"))) ∧
    (paginate "t" [1, 2, 3, 4, 5] 2 3).map (fun p => p.stories.length) = [2, 2, 1] ∧
    ((paginate "t" [1, 2, 3, 4, 5] 2 3).getD 1 default).next_url = some "t_p3.html" ∧
    ((paginate "t" [1, 2, 3, 4, 5] 2 3).getD 2 default).next_url = none ∧
    ((paginate "t" [1, 2, 3, 4, 5] 2 3).getD 2 default).prev_url = some "t_p2.html" :=
  ⟨by decide, paginate_spec "t" [1, 2, 3, 4, 5] 2 3 (by decide),
   by decide, by decide, by decide, by decide⟩

/-! ### Story Synthesizer: title selection (C4) -/

theorem insertGe_ne_nil (ge : α → α → Bool) (x : α) (l : List α) :
    insertGe ge x l ≠ [] := by
  cases l with
  | nil => simp [insertGe]
  | cons y ys =>
    simp only [insertGe]
    split <;> simp

theorem sortGe_eq_nil_iff (ge : α → α → Bool) (l : List α) :
    sortGe ge l = [] ↔ l = [] := by
  cases l with
  | nil => simp [sortGe]
  | cons x xs =>
    simp only [sortGe]
    exact ⟨fun h => absurd h (insertGe_ne_nil ge x _), fun h => absurd h (by simp)⟩

theorem sortGe_perm (ge : α → α → Bool) (l : List α) : (sortGe ge l).Perm l := by
  induction l with
  | nil => simp [sortGe]
  | cons x xs ih =>
    simp only [sortGe]
    have hins : ∀ (m : List α), (insertGe ge x m).Perm (x :: m) := by
      intro m
      induction m with
      | nil => simp [insertGe]
      | cons y ys ihm =>
        simp only [insertGe]
        split
        · exact List.Perm.refl _
        · exact (List.Perm.cons y ihm).trans (List.Perm.swap x y ys)
    exact (hins (sortGe ge xs)).trans (List.Perm.cons x ih)

theorem bestTitle_eq_none_iff (l : List String) : bestTitle l = none ↔ l = [] := by
  cases l with
  | nil => simp [bestTitle]
  | cons t ts =>
    simp only [bestTitle]
    constructor
    · intro h
      exfalso
      cases hts : bestTitle ts with
      | none => rw [hts] at h; simp at h
      | some u =>
        rw [hts] at h
        by_cases hg : titleGe t u <;> simp [hg] at h
    · intro h
      exact absurd h (by simp)

theorem bestTitle_head :
    ∀ (l : List String) (b : String), bestTitle l = some b →
      ∀ d, (sortGe titleGe l).headD d = b := by
  intro l
  induction l with
  | nil => intro b h; simp [bestTitle] at h
  | cons t ts ih =>
    intro b h d
    cases hts : bestTitle ts with
    | none =>
      have hnil : ts = [] := (bestTitle_eq_none_iff ts).mp hts
      subst hnil
      simp only [bestTitle] at h
      cases h
      simp [sortGe, insertGe]
    | some u =>
      have hne : ts ≠ [] := by
        intro h0
        rw [h0] at hts
        simp [bestTitle] at hts
      obtain ⟨y, ys, hsort⟩ : ∃ y ys, sortGe titleGe ts = y :: ys := by
        cases hs : sortGe titleGe ts with
        | nil => exact absurd ((sortGe_eq_nil_iff _ _).mp hs) hne
        | cons y ys => exact ⟨y, ys, rfl⟩
      have hyu : y = u := by
        have := ih u hts d
        rw [hsort] at this
        simpa using this
      subst hyu
      simp only [bestTitle, hts] at h
      simp only [sortGe, hsort, insertGe]
      by_cases hge : titleGe t y
      · rw [if_pos hge]
        rw [if_pos hge] at h
        cases h
        simp
      · rw [if_neg hge]
        rw [if_neg hge] at h
        cases h
        simp

/-- C4 (amended): a singleton cluster returns its item's title verbatim
(`"Untitled story"` when empty); a cluster of size at least 2 first strips
each title of surrounding whitespace, drops the ones that are empty after
stripping, and returns the stripped title maximizing
`(min(length, 120), length)` with ties broken by list order
(`"Untitled story"` when none remains). -/
theorem story_title_spec (cluster : List Item) :
    (∀ it : Item, cluster = [it] →
      story_title_for_cluster cluster =
        (if it.title.getD "" = "" then "Untitled story" else it.title.getD "")) ∧
    (2 ≤ cluster.length →
      story_title_for_cluster cluster =
        (bestTitle ((cluster.map (fun it => pyStrip (it.title.getD ""))).filter
          (fun t => t ≠ ""))).getD "Untitled story") := by
  constructor
  · intro it hit
    subst hit
    simp [story_title_for_cluster]
  · intro hlen
    have h1 : cluster.length ≠ 1 := by omega
    simp only [story_title_for_cluster, if_neg h1]
    split
    · rename_i hnil
      rw [hnil]
      simp [bestTitle]
    · rename_i hnn
      cases hb : bestTitle ((cluster.map (fun it => pyStrip (it.title.getD ""))).filter
          (fun t => t ≠ "")) with
      | none => exact absurd ((bestTitle_eq_none_iff _).mp hb) hnn
      | some b =>
        rw [bestTitle_head _ b hb "Untitled story"]
        rfl

theorem story_title_spec_witness :
    story_title_for_cluster [{ title := some "x" }] =
      (if ({ title := some "x" } : Item).title.getD "" = "" then "Untitled story"
       else ({ title := some "x" } : Item).title.getD "") ∧
    story_title_for_cluster [{ title := some "abc" }, { title := some "de" }] =
      (bestTitle ((([{ title := some "abc" }, { title := some "de" }] : List Item).map
        (fun it => pyStrip (it.title.getD ""))).filter
          (fun t => t ≠ ""))).getD "Untitled story" :=
  ⟨(story_title_spec ([{ title := some "x" }] : List Item)).1
      ({ title := some "x" } : Item) rfl,
   (story_title_spec ([{ title := some "abc" }, { title := some "de" }] : List Item)).2
      (by decide)⟩

/-- C4 counterexample: with raw titles `"aa "` and `"b"` the function
returns the stripped string `"aa"`, which is not one of the cluster's
(non-empty) titles at all, contradicting the claim that the result is the
key-maximizing non-empty title (here `"aa "`). -/
theorem story_title_not_a_raw_title :
    story_title_for_cluster [{ title := some "aa " }, { title := some "b" }] = "aa" ∧
    "aa" ∉ ["aa ", "b"] ∧
    story_title_for_cluster [{ title := some "aa " }, { title := some "b" }] ≠ "aa " := by
  refine ⟨?_, ?_, ?_⟩ <;> decide

/-! ### Story Synthesizer: summary synthesis (C5) -/

theorem length_mk (l : List Char) : (String.mk l).length = l.length := rfl

theorem pyRStrip_length (s : String) : (pyRStrip s).length ≤ s.length := by
  unfold pyRStrip
  rw [length_mk, List.length_reverse]
  calc (s.data.reverse.dropWhile Char.isWhitespace).length
      ≤ s.data.reverse.length := (List.dropWhile_sublist Char.isWhitespace).length_le
    _ = s.length := by rw [List.length_reverse]; rfl

theorem pyTake_length (s : String) (n : Nat) : (pyTake s n).length ≤ n := by
  unfold pyTake
  rw [length_mk, List.length_take]
  exact min_le_left _ _

theorem shorten_length (t : String) (m : Nat) (hm : 1 ≤ m) : (_shorten t m).length ≤ m := by
  unfold _shorten
  dsimp only
  split
  · rename_i h; exact h
  · rename_i h
    rw [String.length_append]
    have h1 := pyRStrip_length (pyTake (pyCollapseWs t) (m - 1))
    have h2 := pyTake_length (pyCollapseWs t) (m - 1)
    have h3 : ("…" : String).length = 1 := rfl
    omega

theorem summaryLoopSrc_proj (ms : Nat) :
    ∀ (cluster : List Item) (picked : List (String × String)) (seen : List String),
      (summaryLoopSrc ms cluster picked seen).map Prod.snd =
        summaryLoop ms cluster (picked.map Prod.snd) seen := by
  intro cluster
  induction cluster with
  | nil => intro picked seen; simp [summaryLoopSrc, summaryLoop]
  | cons it rest ih =>
    intro picked seen
    simp only [summaryLoopSrc, summaryLoop]
    by_cases h1 : pyStrip (it.summary.getD "") = ""
    · rw [if_pos h1, if_pos h1]
      exact ih _ _
    · rw [if_neg h1, if_neg h1]
      by_cases h2 : pyStrip (it.source.getD "") ≠ "" ∧ pyStrip (it.source.getD "") ∈ seen
      · rw [if_pos h2, if_pos h2]
        exact ih _ _
      · rw [if_neg h2, if_neg h2]
        by_cases h3 : ms ≤ picked.length + 1
        · rw [if_pos (by simp; omega), if_pos (by simp; omega)]
          simp
        · rw [if_neg (by simp; omega), if_neg (by simp; omega)]
          have := ih (picked ++
            [(pyStrip (it.source.getD ""), _shorten (pyStrip (it.summary.getD "")) 180)])
            (pyStrip (it.source.getD "") :: seen)
          simpa using this

theorem summaryLoop_length (ms : Nat) :
    ∀ (cluster : List Item) (picked seen : List String),
      picked.length < ms → (summaryLoop ms cluster picked seen).length ≤ ms := by
  intro cluster
  induction cluster with
  | nil => intro picked seen h; simp [summaryLoop]; omega
  | cons it rest ih =>
    intro picked seen h
    simp only [summaryLoop]
    split
    · exact ih _ _ h
    · split
      · exact ih _ _ h
      · split
        · simp; omega
        · rename_i hns
          exact ih _ _ (by simp; simp at hns; omega)

theorem summaryLoop_mem (ms : Nat) :
    ∀ (cluster : List Item) (picked seen : List String),
      ∀ s ∈ summaryLoop ms cluster picked seen, s ∈ picked ∨ s.length ≤ 180 := by
  intro cluster
  induction cluster with
  | nil => intro picked seen s hs; exact Or.inl hs
  | cons it rest ih =>
    intro picked seen s hs
    simp only [summaryLoop] at hs
    split at hs
    · exact ih _ _ s hs
    · split at hs
      · exact ih _ _ s hs
      · have hmem : s ∈ picked ++ [_shorten (pyStrip (it.summary.getD "")) 180] →
            s ∈ picked ∨ s.length ≤ 180 := by
          intro hm
          rcases List.mem_append.mp hm with hm | hm
          · exact Or.inl hm
          · simp only [List.mem_singleton] at hm
            subst hm
            exact Or.inr (shorten_length _ 180 (by omega))
        split at hs
        · exact hmem hs
        · rcases ih _ _ s hs with hm | hm
          · exact hmem hm
          · exact Or.inr hm

theorem summaryLoopSrc_pairwise (ms : Nat) :
    ∀ (cluster : List Item) (picked : List (String × String)) (seen : List String),
      (∀ p ∈ picked, p.1 ≠ "" → p.1 ∈ seen) →
      List.Pairwise (fun a b => a.1 = b.1 → a.1 = "") picked →
      List.Pairwise (fun a b => a.1 = b.1 → a.1 = "")
        (summaryLoopSrc ms cluster picked seen) := by
  intro cluster
  induction cluster with
  | nil => intro picked seen _ hpw; exact hpw
  | cons it rest ih =>
    intro picked seen hinv hpw
    simp only [summaryLoopSrc]
    split
    · exact ih _ _ hinv hpw
    · split
      · exact ih _ _ hinv hpw
      · rename_i hsnip hsrc
        have hR : ∀ a ∈ picked, a.1 = pyStrip (it.source.getD "") → a.1 = "" := by
          intro a ha heq
          by_contra hne
          have hseen : a.1 ∈ seen := hinv a ha hne
          rw [heq] at hseen hne
          exact hsrc ⟨hne, hseen⟩
        have hpw' : List.Pairwise (fun a b => a.1 = b.1 → a.1 = "")
            (picked ++ [(pyStrip (it.source.getD ""),
              _shorten (pyStrip (it.summary.getD "")) 180)]) := by
          rw [List.pairwise_append]
          refine ⟨hpw, List.pairwise_singleton _ _, ?_⟩
          intro a ha b hb
          simp only [List.mem_singleton] at hb
          subst hb
          exact hR a ha
        split
        · exact hpw'
        · refine ih _ _ ?_ hpw'
          intro p hp hne
          rcases List.mem_append.mp hp with hm | hm
          · exact List.mem_cons_of_mem _ (hinv p hm hne)
          · simp only [List.mem_singleton] at hm
            subst hm
            exact List.mem_cons_self _ _

theorem summaryLoop_all_empty (ms : Nat) :
    ∀ (cluster : List Item) (picked seen : List String),
      (∀ it ∈ cluster, pyStrip (it.summary.getD "") = "") →
      summaryLoop ms cluster picked seen = picked := by
  intro cluster
  induction cluster with
  | nil => intro picked seen _; rfl
  | cons it rest ih =>
    intro picked seen h
    simp only [summaryLoop]
    rw [if_pos (h it (List.mem_cons_self _ _))]
    exact ih _ _ (fun x hx => h x (List.mem_cons_of_mem _ hx))

/-- C5 (amended): walking the cluster in order, items with an empty
(stripped) summary are skipped; at most one snippet is accepted per distinct
non-empty source — items whose source is empty or missing are never
deduplicated against each other; each accepted snippet is `_shorten`ed to at
most 180 characters; accumulation stops at 3 snippets; and when every item's
summary is empty the result falls back to the first 3 titles shortened to
160, joined by single spaces.  (`summaryLoopSrc` instruments the code's loop
with the accepted source per snippet; its `Prod.snd` projection is exactly
the code's `picked` list.) -/
theorem story_summary_spec (cluster : List Item) :
    ((summaryLoopSrc 3 cluster [] []).map Prod.snd = summaryLoop 3 cluster [] []) ∧
    (summaryLoop 3 cluster [] []).length ≤ 3 ∧
    (∀ s ∈ summaryLoop 3 cluster [] [], s.length ≤ 180) ∧
    List.Pairwise (fun a b => a.1 = b.1 → a.1 = "") (summaryLoopSrc 3 cluster [] []) ∧
    ((∀ it ∈ cluster, pyStrip (it.summary.getD "") = "") →
      story_summary_for_cluster cluster 3 =
        pyStrip (joinSpace ((cluster.take 3).map
          (fun it => _shorten (it.title.getD "") 160)))) := by
  refine ⟨?_, ?_, ?_, ?_, ?_⟩
  · simpa using summaryLoopSrc_proj 3 cluster [] []
  · exact summaryLoop_length 3 cluster [] [] (by decide)
  · intro s hs
    rcases summaryLoop_mem 3 cluster [] [] s hs with hm | hm
    · simp at hm
    · exact hm
  · exact summaryLoopSrc_pairwise 3 cluster [] [] (by simp) List.Pairwise.nil
  · intro hall
    simp only [story_summary_for_cluster]
    rw [summaryLoop_all_empty 3 cluster [] [] hall]
    simp

theorem story_summary_spec_witness :
    (((summaryLoopSrc 3
        [{ source := some "A", summary := some "s1" },
         { source := some "A", summary := some "s2" },
         { source := some "B", summary := some "s3" }] [] []).map Prod.snd =
      summaryLoop 3
        [{ source := some "A", summary := some "s1" },
         { source := some "A", summary := some "s2" },
         { source := some "B", summary := some "s3" }] [] []) ∧
    (summaryLoop 3
        [{ source := some "A", summary := some "s1" },
         { source := some "A", summary := some "s2" },
         { source := some "B", summary := some "s3" }] [] []).length ≤ 3 ∧
    (∀ s ∈ summaryLoop 3
        [{ source := some "A", summary := some "s1" },
         { source := some "A", summary := some "s2" },
         { source := some "B", summary := some "s3" }] [] [], s.length ≤ 180) ∧
    List.Pairwise (fun a b => a.1 = b.1 → a.1 = "")
      (summaryLoopSrc 3
        [{ source := some "A", summary := some "s1" },
         { source := some "A", summary := some "s2" },
         { source := some "B", summary := some "s3" }] [] []) ∧
    ((∀ it ∈ ([{ source := some "A", summary := some "s1" },
         { source := some "A", summary := some "s2" },
         { source := some "B", summary := some "s3" }] : List Item),
        pyStrip (it.summary.getD "") = "") →
      story_summary_for_cluster
        [{ source := some "A", summary := some "s1" },
         { source := some "A", summary := some "s2" },
         { source := some "B", summary := some "s3" }] 3 =
        pyStrip (joinSpace ((([{ source := some "A", summary := some "s1" },
         { source := some "A", summary := some "s2" },
         { source := some "B", summary := some "s3" }] : List Item).take 3).map
          (fun it => _shorten (it.title.getD "") 160))))) ∧
    story_summary_for_cluster
      [{ source := some "A", summary := some "s1" },
       { source := some "A", summary := some "s2" },
       { source := some "B", summary := some "s3" }] 3 = "s1 s3" :=
  ⟨story_summary_spec
    [{ source := some "A", summary := some "s1" },
     { source := some "A", summary := some "s2" },
     { source := some "B", summary := some "s3" }], by decide⟩

/-- C5 counterexample: two items with a missing source both contribute a
snippet — the code only deduplicates non-empty sources — whereas the claimed
"at most one snippet per distinct source" rule would keep only the first. -/
theorem story_summary_empty_source_not_deduped :
    story_summary_for_cluster
      [{ summary := some "abc" }, { summary := some "xyz" }] 3 = "abc xyz" ∧
    claim_story_summary
      [{ summary := some "abc" }, { summary := some "xyz" }] 3 = "abc" ∧
    story_summary_for_cluster
        [{ summary := some "abc" }, { summary := some "xyz" }] 3 ≠
      claim_story_summary
        [{ summary := some "abc" }, { summary := some "xyz" }] 3 := by
  refine ⟨?_, ?_, ?_⟩ <;> decide

/-! ### Normalizer (C8) -/

theorem charToNat_ofNat_small (n : Nat) (h : n < 55296) : (Char.ofNat n).toNat = n := by
  unfold Char.ofNat
  rw [dif_pos (Or.inl h)]
  unfold Char.ofNatAux Char.toNat
  simp [UInt32.toNat]

theorem toLower_not_upper_range (c : Char) :
    ¬(65 ≤ (Char.toLower c).toNat ∧ (Char.toLower c).toNat ≤ 90) := by
  unfold Char.toLower
  dsimp only
  split
  · rename_i h
    have hv : (Char.ofNat (c.toNat + 32)).toNat = c.toNat + 32 :=
      charToNat_ofNat_small _ (by omega)
    omega
  · rename_i h
    exact h

theorem mem_replaceChar (s : String) (c0 : Char) (rep : String) (c : Char)
    (h : c ∈ (replaceChar s c0 rep).data) :
    (c ∈ s.data ∧ c ≠ c0) ∨ c ∈ rep.data := by
  have h2 : c ∈ s.data.flatMap (fun ch => if ch = c0 then rep.data else [ch]) := h
  simp only [List.mem_flatMap] at h2
  obtain ⟨a, ha, hc⟩ := h2
  by_cases hac : a = c0
  · rw [if_pos hac] at hc
    exact Or.inr hc
  · rw [if_neg hac] at hc
    simp only [List.mem_singleton] at hc
    subst hc
    exact Or.inl ⟨ha, hac⟩

theorem foldl_replace_mem :
    ∀ (cs : List Char) (acc : String) (c : Char),
      c ∈ ((cs.foldl (fun a ch => replaceChar a ch " ") acc)).data →
      (c ∈ acc.data ∧ c ∉ cs) ∨ c = ' ' := by
  intro cs
  induction cs with
  | nil => intro acc c h; exact Or.inl ⟨h, by simp⟩
  | cons ch cs ih =>
    intro acc c h
    rcases ih (replaceChar acc ch " ") c h with ⟨hmem, hnot⟩ | hsp
    · rcases mem_replaceChar acc ch " " c hmem with ⟨ha, hne⟩ | hs
      · exact Or.inl ⟨ha, by simp [hne, hnot]⟩
      · simp only [List.mem_singleton, show (" " : String).data = [' '] from rfl] at hs
        exact Or.inr hs
    · exact Or.inr hsp

theorem wordsAux_words :
    ∀ (l acc : List Char), (∀ c ∈ acc, ¬c.isWhitespace) →
      ∀ w ∈ wordsAux l acc, w ≠ [] ∧ ∀ c ∈ w, ¬c.isWhitespace := by
  intro l
  induction l with
  | nil =>
    intro acc hacc w hw
    simp only [wordsAux] at hw
    split at hw
    · simp at hw
    · rename_i hne
      simp only [List.mem_singleton] at hw
      subst hw
      exact ⟨by simpa using hne, fun c hc => hacc c (List.mem_reverse.mp hc)⟩
  | cons c cs ih =>
    intro acc hacc w hw
    simp only [wordsAux] at hw
    by_cases hws : c.isWhitespace
    · rw [if_pos hws] at hw
      split at hw
      · exact ih [] (by simp) w hw
      · rename_i hne
        rcases List.mem_cons.mp hw with rfl | hw
        · exact ⟨by simpa using hne, fun d hd => hacc d (List.mem_reverse.mp hd)⟩
        · exact ih [] (by simp) w hw
    · rw [if_neg hws] at hw
      refine ih (c :: acc) ?_ w hw
      intro d hd
      rcases List.mem_cons.mp hd with rfl | hd
      · exact hws
      · exact hacc d hd

theorem wordsAux_chars :
    ∀ (l acc : List Char) (w : List Char), w ∈ wordsAux l acc →
      ∀ c ∈ w, c ∈ l ∨ c ∈ acc := by
  intro l
  induction l with
  | nil =>
    intro acc w hw c hc
    simp only [wordsAux] at hw
    split at hw
    · simp at hw
    · simp only [List.mem_singleton] at hw
      subst hw
      exact Or.inr (List.mem_reverse.mp hc)
  | cons a as ih =>
    intro acc w hw c hc
    simp only [wordsAux] at hw
    by_cases hws : a.isWhitespace
    · rw [if_pos hws] at hw
      split at hw
      · rcases ih [] w hw c hc with h | h
        · exact Or.inl (List.mem_cons_of_mem _ h)
        · simp at h
      · rcases List.mem_cons.mp hw with rfl | hw
        · exact Or.inr (List.mem_reverse.mp hc)
        · rcases ih [] w hw c hc with h | h
          · exact Or.inl (List.mem_cons_of_mem _ h)
          · simp at h
    · rw [if_neg hws] at hw
      rcases ih (a :: acc) w hw c hc with h | h
      · exact Or.inl (List.mem_cons_of_mem _ h)
      · rcases List.mem_cons.mp h with rfl | h
        · exact Or.inl (List.mem_cons_self _ _)
        · exact Or.inr h

theorem mem_joinSpaceL :
    ∀ (ws : List (List Char)) (c : Char), c ∈ joinSpaceL ws →
      (∃ w ∈ ws, c ∈ w) ∨ c = ' ' := by
  intro ws
  induction ws with
  | nil => intro c hc; simp [joinSpaceL] at hc
  | cons w rest ih =>
    intro c hc
    cases rest with
    | nil =>
      simp only [joinSpaceL] at hc
      exact Or.inl ⟨w, by simp, hc⟩
    | cons v more =>
      simp only [joinSpaceL] at hc
      rcases List.mem_append.mp hc with h | h
      · exact Or.inl ⟨w, by simp, h⟩
      · rcases List.mem_cons.mp h with rfl | h
        · exact Or.inr rfl
        · rcases ih c h with ⟨u, hu, hcu⟩ | h
          · exact Or.inl ⟨u, List.mem_cons_of_mem _ hu, hcu⟩
          · exact Or.inr h

theorem joinSpaceL_ne_nil (ws : List (List Char))
    (hws : ws ≠ []) (hne : ∀ w ∈ ws, w ≠ []) : joinSpaceL ws ≠ [] := by
  cases ws with
  | nil => exact absurd rfl hws
  | cons w rest =>
    cases rest with
    | nil => exact hne w (by simp)
    | cons v more =>
      simp only [joinSpaceL]
      intro h
      have := List.append_eq_nil.mp h
      simp at this

theorem joinSpaceL_head :
    ∀ (ws : List (List Char)), (∀ w ∈ ws, w ≠ [] ∧ ∀ c ∈ w, ¬c.isWhitespace) →
      ∀ c, (joinSpaceL ws).head? = some c → ¬c.isWhitespace := by
  intro ws
  induction ws with
  | nil => intro _ c hc; simp [joinSpaceL] at hc
  | cons w rest ih =>
    intro h c hc
    have hw := h w (by simp)
    obtain ⟨w0, wtail, rfl⟩ : ∃ w0 wtail, w = w0 :: wtail := by
      cases w with
      | nil => exact absurd rfl hw.1
      | cons a b => exact ⟨a, b, rfl⟩
    cases rest with
    | nil =>
      simp only [joinSpaceL, List.head?_cons, Option.some_inj] at hc
      rw [← hc]
      exact hw.2 w0 (by simp)
    | cons v more =>
      simp only [joinSpaceL, List.cons_append, List.head?_cons,
        Option.some_inj] at hc
      rw [← hc]
      exact hw.2 w0 (by simp)

theorem mem_of_getLast?_eq (l : List α) (c : α) (h : l.getLast? = some c) : c ∈ l := by
  have hx : c ∈ l.getLast? := by rw [h]; rfl
  obtain ⟨hne, rfl⟩ := List.mem_getLast?_eq_getLast hx
  exact List.getLast_mem hne

theorem getLast?_cons_of_ne_nil (a : α) (l : List α) (h : l ≠ []) :
    (a :: l).getLast? = l.getLast? := by
  have : a :: l = [a] ++ l := rfl
  rw [this, List.getLast?_append_of_ne_nil _ h]

theorem joinSpaceL_last :
    ∀ (ws : List (List Char)), (∀ w ∈ ws, w ≠ [] ∧ ∀ c ∈ w, ¬c.isWhitespace) →
      ∀ c, (joinSpaceL ws).getLast? = some c → ¬c.isWhitespace := by
  intro ws
  induction ws with
  | nil => intro _ c hc; simp [joinSpaceL] at hc
  | cons w rest ih =>
    intro h c hc
    have hw := h w (by simp)
    cases rest with
    | nil =>
      simp only [joinSpaceL] at hc
      exact hw.2 c (mem_of_getLast?_eq _ c hc)
    | cons v more =>
      simp only [joinSpaceL] at hc
      have hJne : joinSpaceL (v :: more) ≠ [] :=
        joinSpaceL_ne_nil _ (by simp) (fun u hu => (h u (List.mem_cons_of_mem _ hu)).1)
      rw [List.getLast?_append_of_ne_nil _ (by simp),
        getLast?_cons_of_ne_nil _ _ hJne] at hc
      exact ih (fun u hu => h u (List.mem_cons_of_mem _ hu)) c hc

theorem chain'_no2ws_of_all (l : List Char) (h : ∀ c ∈ l, ¬c.isWhitespace) :
    List.Chain' (fun a b => ¬(a.isWhitespace ∧ b.isWhitespace)) l := by
  induction l with
  | nil => simp
  | cons a t ih =>
    rw [List.chain'_cons']
    refine ⟨fun b _ => ?_, ih (fun c hc => h c (List.mem_cons_of_mem _ hc))⟩
    intro hab
    exact h a (List.mem_cons_self _ _) hab.1

theorem joinSpaceL_chain' :
    ∀ (ws : List (List Char)), (∀ w ∈ ws, w ≠ [] ∧ ∀ c ∈ w, ¬c.isWhitespace) →
      List.Chain' (fun a b => ¬(a.isWhitespace ∧ b.isWhitespace)) (joinSpaceL ws) := by
  intro ws
  induction ws with
  | nil => simp [joinSpaceL]
  | cons w rest ih =>
    intro h
    cases rest with
    | nil =>
      simp only [joinSpaceL]
      exact chain'_no2ws_of_all w (h w (by simp)).2
    | cons v more =>
      simp only [joinSpaceL]
      rw [List.chain'_append]
      refine ⟨chain'_no2ws_of_all w (h w (by simp)).2, ?_, ?_⟩
      · rw [List.chain'_cons']
        refine ⟨?_, ih (fun u hu => h u (List.mem_cons_of_mem _ hu))⟩
        intro b hb hab
        exact joinSpaceL_head (v :: more)
          (fun u hu => h u (List.mem_cons_of_mem _ hu)) b hb hab.2
      · intro x hx y hy
        intro hxy
        exact (h w (by simp)).2 x (mem_of_getLast?_eq _ x hx) hxy.1

theorem pyCollapseWs_props (s : String) :
    (∀ c ∈ (pyCollapseWs s).data, c ∈ s.data ∨ c = ' ') ∧
    (∀ c, (pyCollapseWs s).data.head? = some c → ¬c.isWhitespace) ∧
    (∀ c, (pyCollapseWs s).data.getLast? = some c → ¬c.isWhitespace) ∧
    List.Chain' (fun a b => ¬(a.isWhitespace ∧ b.isWhitespace)) (pyCollapseWs s).data := by
  have hwords : ∀ w ∈ pyWords s, w ≠ [] ∧ ∀ c ∈ w, ¬c.isWhitespace :=
    wordsAux_words s.data [] (by simp)
  have hdata : (pyCollapseWs s).data = joinSpaceL (pyWords s) := rfl
  refine ⟨?_, ?_, ?_, ?_⟩
  · intro c hc
    rw [hdata] at hc
    rcases mem_joinSpaceL _ c hc with ⟨w, hw, hcw⟩ | h
    · rcases wordsAux_chars s.data [] w hw c hcw with h | h
      · exact Or.inl h
      · simp at h
    · exact Or.inr h
  · rw [hdata]; exact joinSpaceL_head _ hwords
  · rw [hdata]; exact joinSpaceL_last _ hwords
  · rw [hdata]; exact joinSpaceL_chain' _ hwords

theorem normalize_unfold (s : String) :
    _normalize_de_text s = pyCollapseWs (punctChars.foldl
      (fun acc c => replaceChar acc c " ")
      (replaceChar (String.mk (s.data.map Char.toLower)) 'ß' "ss")) := rfl

theorem normalize_chars (s : String) :
    ∀ c ∈ (_normalize_de_text s).data,
      ¬(65 ≤ c.toNat ∧ c.toNat ≤ 90) ∧ c ≠ 'ß' ∧ c ∉ punctChars := by
  rw [normalize_unfold]
  generalize hL : String.mk (s.data.map Char.toLower) = L
  generalize hR : replaceChar L 'ß' "ss" = R
  generalize hF : punctChars.foldl (fun acc c => replaceChar acc c " ") R = F
  intro c hc
  have hsp : ¬(65 ≤ (' ' : Char).toNat ∧ (' ' : Char).toNat ≤ 90) ∧
      (' ' : Char) ≠ 'ß' ∧ (' ' : Char) ∉ punctChars := by decide
  have hs : ¬(65 ≤ ('s' : Char).toNat ∧ ('s' : Char).toNat ≤ 90) ∧
      ('s' : Char) ≠ 'ß' ∧ ('s' : Char) ∉ punctChars := by decide
  rcases (pyCollapseWs_props F).1 c hc with hX | rfl
  · rw [← hF] at hX
    rcases foldl_replace_mem punctChars R c hX with ⟨hrep, hnp⟩ | rfl
    · rw [← hR] at hrep
      rcases mem_replaceChar L 'ß' "ss" c hrep with ⟨hlow, hne⟩ | hss
      · rw [← hL] at hlow
        have hlow2 : c ∈ s.data.map Char.toLower := hlow
        simp only [List.mem_map] at hlow2
        obtain ⟨d, _, rfl⟩ := hlow2
        exact ⟨toLower_not_upper_range d, hne, hnp⟩
      · have hcs : c = 's' := by
          have hd : ("ss" : String).data = ['s', 's'] := rfl
          rw [hd] at hss
          simpa using hss
        subst hcs
        exact hs
    · exact hsp
  · exact hsp

theorem normalize_head (s : String) :
    ∀ c, (_normalize_de_text s).data.head? = some c → ¬c.isWhitespace := by
  rw [normalize_unfold]
  generalize (punctChars.foldl (fun acc c => replaceChar acc c " ")
    (replaceChar (String.mk (s.data.map Char.toLower)) 'ß' "ss")) = F
  exact (pyCollapseWs_props F).2.1

theorem normalize_last (s : String) :
    ∀ c, (_normalize_de_text s).data.getLast? = some c → ¬c.isWhitespace := by
  rw [normalize_unfold]
  generalize (punctChars.foldl (fun acc c => replaceChar acc c " ")
    (replaceChar (String.mk (s.data.map Char.toLower)) 'ß' "ss")) = F
  exact (pyCollapseWs_props F).2.2.1

theorem normalize_chain (s : String) :
    List.Chain' (fun a b => ¬(a.isWhitespace ∧ b.isWhitespace))
      (_normalize_de_text s).data := by
  rw [normalize_unfold]
  generalize (punctChars.foldl (fun acc c => replaceChar acc c " ")
    (replaceChar (String.mk (s.data.map Char.toLower)) 'ß' "ss")) = F
  exact (pyCollapseWs_props F).2.2.2

theorem data_append (a b : String) : (a ++ b).data = a.data ++ b.data := rfl

theorem string_ne_empty_iff (s : String) : s ≠ "" ↔ s.data ≠ [] := by
  constructor
  · intro h hd
    exact h (congrArg String.mk hd)
  · intro h hd
    rw [hd] at h
    exact h rfl

theorem pyStripL_eq_self (l : List Char)
    (hh : ∀ c, l.head? = some c → ¬c.isWhitespace)
    (hl : ∀ c, l.getLast? = some c → ¬c.isWhitespace) : pyStripL l = l := by
  unfold pyStripL
  have h1 : l.dropWhile Char.isWhitespace = l := by
    cases l with
    | nil => rfl
    | cons a t =>
      rw [List.dropWhile_cons, if_neg (by simpa using hh a rfl)]
  rw [h1]
  have h2 : l.reverse.dropWhile Char.isWhitespace = l.reverse := by
    cases hr : l.reverse with
    | nil => rfl
    | cons a t =>
      have ha : l.getLast? = some a := by
        rw [← List.head?_reverse, hr]
        rfl
      rw [List.dropWhile_cons, if_neg (by simpa using hl a ha)]
  rw [h2, List.reverse_reverse]

/-- C8 (amended): the builder returns normalized-title + `". "` +
normalized-summary **stripped of surrounding whitespace** — when the
normalized summary is non-empty no stripping occurs and the result is the
plain concatenation; normalization leaves no ASCII uppercase letter, no
`'ß'` and no character of the punctuation set in its output, and its output
has no leading, trailing or repeated whitespace.  (Purity holds by
construction: both functions are mathematical functions of their input.) -/
theorem normalize_build_spec :
    (∀ it : Item, _normalize_de_text (it.summary.getD "") ≠ "" →
      _build_story_text it =
        _normalize_de_text (it.title.getD "") ++ ". " ++
          _normalize_de_text (it.summary.getD "")) ∧
    (∀ s : String, ∀ c ∈ (_normalize_de_text s).data,
      ¬(65 ≤ c.toNat ∧ c.toNat ≤ 90) ∧ c ≠ 'ß' ∧ c ∉ punctChars) ∧
    (∀ s : String,
      (∀ c, (_normalize_de_text s).data.head? = some c → ¬c.isWhitespace) ∧
      (∀ c, (_normalize_de_text s).data.getLast? = some c → ¬c.isWhitespace) ∧
      List.Chain' (fun a b => ¬(a.isWhitespace ∧ b.isWhitespace))
        (_normalize_de_text s).data) := by
  refine ⟨?_, normalize_chars, ?_⟩
  case refine_2 =>
    intro s
    rw [normalize_unfold]
    generalize (punctChars.foldl (fun acc c => replaceChar acc c " ")
      (replaceChar (String.mk (s.data.map Char.toLower)) 'ß' "ss")) = F
    exact ⟨(pyCollapseWs_props F).2.1, (pyCollapseWs_props F).2.2.1,
      (pyCollapseWs_props F).2.2.2⟩
  intro it hns
  have hdata : (_normalize_de_text (it.title.getD "") ++ ". " ++
      _normalize_de_text (it.summary.getD "")).data =
      (_normalize_de_text (it.title.getD "")).data ++
        ('.' :: ' ' :: (_normalize_de_text (it.summary.getD "")).data) := by
    rw [data_append, data_append, List.append_assoc]
    congr 1
  have hnsd : (_normalize_de_text (it.summary.getD "")).data ≠ [] :=
    (string_ne_empty_iff _).mp hns
  have hstrip : pyStripL ((_normalize_de_text (it.title.getD "") ++ ". " ++
      _normalize_de_text (it.summary.getD "")).data) =
      (_normalize_de_text (it.title.getD "") ++ ". " ++
      _normalize_de_text (it.summary.getD "")).data := by
    rw [hdata]
    apply pyStripL_eq_self
    · intro c hc
      cases ht : (_normalize_de_text (it.title.getD "")).data with
      | nil =>
        rw [ht] at hc
        simp only [List.nil_append, List.head?_cons, Option.some_inj] at hc
        subst hc
        decide
      | cons a t =>
        rw [ht] at hc
        simp only [List.cons_append, List.head?_cons, Option.some_inj] at hc
        rw [← hc]
        exact normalize_head (it.title.getD "") a (by rw [ht]; rfl)
    · intro c hc
      rw [List.getLast?_append_of_ne_nil _ (by simp),
        getLast?_cons_of_ne_nil _ _ (by simp [hnsd]),
        getLast?_cons_of_ne_nil _ _ hnsd] at hc
      exact normalize_last (it.summary.getD "") c hc
  show pyStrip (_normalize_de_text (it.title.getD "") ++ ". " ++
      _normalize_de_text (it.summary.getD "")) =
    _normalize_de_text (it.title.getD "") ++ ". " ++
      _normalize_de_text (it.summary.getD "")
  unfold pyStrip
  rw [hstrip]

theorem normalize_build_spec_witness :
    _build_story_text ({ title := some "a", summary := some "b" } : Item) =
      _normalize_de_text ((({ title := some "a", summary := some "b" } : Item)).title.getD "")
        ++ ". " ++
      _normalize_de_text ((({ title := some "a", summary := some "b" } : Item)).summary.getD "") :=
  normalize_build_spec.1 ({ title := some "a", summary := some "b" } : Item) (by decide)

/-- C8 counterexample: with title `"a"` and empty summary the code's final
`.strip()` removes the trailing space, so the output `"a."` differs from the
claimed concatenation `"a. "`. -/
theorem build_story_text_trailing_strip :
    _build_story_text ({ title := some "a" } : Item) = "a." ∧
    _normalize_de_text "a" ++ ". " ++ _normalize_de_text "" = "a. " ∧
    _build_story_text ({ title := some "a" } : Item) ≠
      _normalize_de_text "a" ++ ". " ++ _normalize_de_text "" := by
  refine ⟨?_, ?_, ?_⟩ <;> decide

/-! ### Dedup Key Generator (C7) -/

/-- C7: `stable_id` is a pure deterministic function of
`(source, link, title)`, and a missing (`None`) link and an empty-string
link hash identically: the base string normalizes both to `""`. -/
theorem stable_id_deterministic_none_link :
    (∀ (s : String) (l t : Option String), stable_id s l t = stable_id s l t) ∧
    stable_id "A" (some "") "T" = stable_id "A" none "T" :=
  ⟨fun _ _ _ => rfl, rfl⟩

/-! ### Union-find correctness (C1, C2, C6, C10)

The invariant `WF p` (closure plus every-chain-reaches-a-root) is shown to
hold in every reachable `_UnionFind` state; `find`'s fuel
(`parent.length`) is shown sufficient; `find` preserves the root
assignment and `union` merges exactly the two classes of its arguments. -/

theorem pf_out (p : List Nat) (x : Nat) (h : p.length ≤ x) : pf p x = x := by
  unfold pf
  rw [List.getD_eq_getElem?_getD, List.getElem?_eq_none h]
  rfl

theorem pf_set_self (p : List Nat) (x q : Nat) (hx : x < p.length) :
    pf (p.set x q) x = q := by
  unfold pf
  rw [List.getD_eq_getElem?_getD, List.getElem?_set_self (by simpa using hx)]
  rfl

theorem pf_set_ne (p : List Nat) (x q z : Nat) (hz : z ≠ x) :
    pf (p.set x q) z = pf p z := by
  unfold pf
  rw [List.getD_eq_getElem?_getD, List.getElem?_set_ne (fun h => hz h.symm),
    ← List.getD_eq_getElem?_getD]

theorem iterP_succ (p : List Nat) (k x : Nat) :
    iterP p (k + 1) x = iterP p k (pf p x) := rfl

theorem iterP_add (p : List Nat) (a b x : Nat) :
    iterP p (a + b) x = iterP p b (iterP p a x) := by
  induction a generalizing x with
  | zero => simp [iterP]
  | succ a ih =>
    have h1 : a + 1 + b = (a + b) + 1 := by omega
    rw [h1, iterP_succ, iterP_succ, ih]

theorem iterP_of_root (p : List Nat) (r : Nat) (h : isRoot p r) :
    ∀ k, iterP p k r = r := by
  intro k
  induction k with
  | zero => rfl
  | succ k ih => rw [iterP_succ, h, ih]

theorem rooted_unique (p : List Nat) (x r₁ r₂ : Nat)
    (h₁ : Rooted p x r₁) (h₂ : Rooted p x r₂) : r₁ = r₂ := by
  obtain ⟨hr₁, k₁, e₁⟩ := h₁
  obtain ⟨hr₂, k₂, e₂⟩ := h₂
  rcases Nat.le_total k₁ k₂ with h | h
  · have : iterP p k₂ x = r₁ := by
      have hk : k₂ = k₁ + (k₂ - k₁) := by omega
      rw [hk, iterP_add, e₁, iterP_of_root p r₁ hr₁]
    rw [← e₂, this]
  · have : iterP p k₁ x = r₂ := by
      have hk : k₁ = k₂ + (k₁ - k₂) := by omega
      rw [hk, iterP_add, e₂, iterP_of_root p r₂ hr₂]
    rw [← e₁, this]

theorem rooted_step (p : List Nat) (x y r : Nat) (hxy : pf p x = y)
    (h : Rooted p y r) : Rooted p x r := by
  obtain ⟨hr, k, e⟩ := h
  exact ⟨hr, k + 1, by rw [iterP_succ, hxy, e]⟩

theorem rooted_self (p : List Nat) (x : Nat) (h : isRoot p x) : Rooted p x x :=
  ⟨h, 0, rfl⟩

theorem rooted_out (p : List Nat) (x : Nat) (h : p.length ≤ x) : Rooted p x x :=
  rooted_self p x (pf_out p x h)

theorem rooted_pf (p : List Nat) (x r : Nat) (h : Rooted p x r) :
    Rooted p (pf p x) r := by
  obtain ⟨hr, k, e⟩ := h
  cases k with
  | zero =>
    cases e
    exact ⟨hr, 0, by rw [iterP] at *; exact hr⟩
  | succ k =>
    rw [iterP_succ] at e
    exact ⟨hr, k, e⟩

theorem iterP_lt (p : List Nat) (hwf : ∀ z, z < p.length → pf p z < p.length)
    (x : Nat) (hx : x < p.length) : ∀ k, iterP p k x < p.length := by
  intro k
  induction k generalizing x with
  | zero => exact hx
  | succ k ih => rw [iterP_succ]; exact ih (pf p x) (hwf x hx)

theorem rooted_target_lt (p : List Nat) (hwf : ∀ z, z < p.length → pf p z < p.length)
    (x r : Nat) (hx : x < p.length) (h : Rooted p x r) : r < p.length := by
  obtain ⟨_, k, e⟩ := h
  rw [← e]
  exact iterP_lt p hwf x hx k

theorem rooted_exists_iter (p : List Nat) (x : Nat) (h : ∃ r, Rooted p x r) :
    ∃ k, isRoot p (iterP p k x) := by
  obtain ⟨r, hr, k, e⟩ := h
  exact ⟨k, by rw [e]; exact hr⟩

theorem iterP_path_distinct (p : List Nat) (x : Nat)
    (hex : ∃ k, isRoot p (iterP p k x)) :
    ∀ i j, i < j → j ≤ Nat.find hex → iterP p i x ≠ iterP p j x := by
  intro i j hij hj heq
  have hroot : isRoot p (iterP p (Nat.find hex) x) := Nat.find_spec hex
  have h1 : iterP p (i + (Nat.find hex - j)) x = iterP p (Nat.find hex) x := by
    rw [iterP_add, heq, ← iterP_add]
    congr 1
    omega
  have h2 : isRoot p (iterP p (i + (Nat.find hex - j)) x) := by rw [h1]; exact hroot
  exact Nat.find_min hex (by omega) h2

theorem find_depth_lt (p : List Nat) (x : Nat)
    (hcl : ∀ z, z < p.length → pf p z < p.length) (hx : x < p.length)
    (hex : ∃ k, isRoot p (iterP p k x)) : Nat.find hex < p.length := by
  by_contra hge
  push_neg at hge
  have hinj : Function.Injective
      (fun i : Fin (Nat.find hex + 1) => (⟨iterP p i x, iterP_lt p hcl x hx i⟩ : Fin p.length)) := by
    intro i j hij
    simp only [Fin.mk.injEq] at hij
    rcases Nat.lt_trichotomy i.val j.val with h | h | h
    · exact absurd hij (iterP_path_distinct p x hex i j h (by omega))
    · exact Fin.ext h
    · exact absurd hij.symm (iterP_path_distinct p x hex j i h (by omega))
  have := Fintype.card_le_of_injective _ hinj
  simp only [Fintype.card_fin] at this
  omega

theorem lt_of_not_root (p : List Nat) (x : Nat) (hnr : ¬isRoot p x) :
    x < p.length := by
  by_contra h
  push_neg at h
  exact hnr (pf_out p x h)

theorem no_two_cycle (p : List Nat) (x : Nat)
    (hex : ∃ k, isRoot p (iterP p k x)) (hnr : ¬isRoot p x)
    (hq : pf p (pf p x) = x) : False := by
  have hsucc : ∀ k z, iterP p (k + 1) z = pf p (iterP p k z) := by
    intro k z
    rw [iterP_add p k 1 z]
    rfl
  have halt : ∀ k, iterP p k x = x ∨ iterP p k x = pf p x := by
    intro k
    induction k with
    | zero => exact Or.inl rfl
    | succ k ih =>
      rcases ih with h | h
      · rw [hsucc, h]; exact Or.inr rfl
      · rw [hsucc, h, hq]; exact Or.inl rfl
  obtain ⟨k, hk⟩ := hex
  rcases halt k with h | h
  · rw [h] at hk; exact hnr hk
  · rw [h] at hk
    unfold isRoot at hk
    rw [hq] at hk
    exact hnr hk.symm

theorem halve_q_ne (p : List Nat) (x : Nat) (hwf : WF p) (hnr : ¬isRoot p x) :
    pf p (pf p x) ≠ x := by
  intro hq
  exact no_two_cycle p x (rooted_exists_iter p x (hwf.2 x)) hnr hq

theorem halve_isRoot_iff (p : List Nat) (x : Nat) (hwf : WF p)
    (hnr : ¬isRoot p x) (z : Nat) :
    isRoot (p.set x (pf p (pf p x))) z ↔ isRoot p z := by
  have hx := lt_of_not_root p x hnr
  by_cases hz : z = x
  · rw [hz]
    constructor
    · intro h
      unfold isRoot at h
      rw [pf_set_self p x _ hx] at h
      exact absurd h (halve_q_ne p x hwf hnr)
    · intro h
      exact absurd h hnr
  · unfold isRoot
    rw [pf_set_ne p x _ z hz]

theorem halve_rootedK (p : List Nat) (x : Nat) (hwf : WF p) (hnr : ¬isRoot p x) :
    ∀ (k y r : Nat), iterP p k y = r → isRoot p r →
      Rooted (p.set x (pf p (pf p x))) y r := by
  have hx := lt_of_not_root p x hnr
  intro k
  induction k using Nat.strong_induction_on with
  | _ k ih =>
    intro y r he hr
    by_cases hy : isRoot p y
    · have hry : r = y := by rw [← he, iterP_of_root p y hy k]
      subst hry
      exact rooted_self _ _ ((halve_isRoot_iff p x hwf hnr _).mpr hy)
    · cases k with
      | zero =>
        cases he
        exact absurd hr hy
      | succ k =>
        by_cases hyx : y = x
        · rw [hyx] at he ⊢
          by_cases hpx : isRoot p (pf p x)
          · have hq : pf p (pf p x) = pf p x := hpx
            have hr' : r = pf p x := by
              rw [iterP_succ] at he
              rw [← he, iterP_of_root p _ hpx k]
            subst hr'
            refine rooted_step _ x (pf p x) _ ?_ ?_
            · rw [pf_set_self p x _ hx, hq]
            · exact rooted_self _ _ ((halve_isRoot_iff p x hwf hnr _).mpr hpx)
          · cases k with
            | zero =>
              rw [iterP_succ] at he
              cases he
              exact absurd hr hpx
            | succ k =>
              have he2 : iterP p k (pf p (pf p x)) = r := by
                calc iterP p k (pf p (pf p x)) = iterP p k (iterP p 2 x) := rfl
                  _ = iterP p (2 + k) x := (iterP_add p 2 k x).symm
                  _ = iterP p (k + 1 + 1) x := by congr 1; omega
                  _ = r := he
              have hrec := ih k (by omega) (pf p (pf p x)) r he2 hr
              exact rooted_step _ x _ _ (pf_set_self p x _ hx) hrec
        · rw [iterP_succ] at he
          have hrec := ih k (by omega) (pf p y) r he hr
          exact rooted_step _ y (pf p y) r (pf_set_ne p x _ y hyx) hrec

theorem halve_wf (p : List Nat) (x : Nat) (hwf : WF p) (hnr : ¬isRoot p x) :
    WF (p.set x (pf p (pf p x))) ∧
    (∀ y s, Rooted p y s ↔ Rooted (p.set x (pf p (pf p x))) y s) := by
  have hx := lt_of_not_root p x hnr
  have hfwd : ∀ y s, Rooted p y s → Rooted (p.set x (pf p (pf p x))) y s := by
    intro y s h
    obtain ⟨hr, k, e⟩ := h
    exact halve_rootedK p x hwf hnr k y s e hr
  have hcl : ∀ z, z < (p.set x (pf p (pf p x))).length →
      pf (p.set x (pf p (pf p x))) z < (p.set x (pf p (pf p x))).length := by
    intro z hz
    rw [List.length_set] at hz ⊢
    by_cases hzx : z = x
    · subst hzx
      rw [pf_set_self p _ _ hx]
      exact hwf.1 _ (hwf.1 _ hx)
    · rw [pf_set_ne p x _ z hzx]
      exact hwf.1 z hz
  have hex' : ∀ y, ∃ r, Rooted (p.set x (pf p (pf p x))) y r := by
    intro y
    obtain ⟨r, h⟩ := hwf.2 y
    exact ⟨r, hfwd y r h⟩
  have hbwd : ∀ y s, Rooted (p.set x (pf p (pf p x))) y s → Rooted p y s := by
    intro y s h'
    obtain ⟨s₀, h₀⟩ := hwf.2 y
    have heq := rooted_unique _ y s s₀ h' (hfwd y s₀ h₀)
    rw [heq]
    exact h₀
  exact ⟨⟨hcl, hex'⟩, fun y s => ⟨hfwd y s, hbwd y s⟩⟩

theorem iterP_set_eq (p : List Nat) (x q : Nat) :
    ∀ (m z : Nat), (∀ i, i < m → iterP p i z ≠ x) →
      iterP (p.set x q) m z = iterP p m z := by
  intro m
  induction m with
  | zero => intro z _; rfl
  | succ m ih =>
    intro z hz
    have hz0 : z ≠ x := by simpa using hz 0 (by omega)
    rw [iterP_succ, iterP_succ, pf_set_ne p x q z hz0]
    refine ih (pf p z) ?_
    intro i hi
    have := hz (i + 1) (by omega)
    rwa [iterP_succ] at this

theorem halve_depth (p : List Nat) (x : Nat) (hwf : WF p) (hnr : ¬isRoot p x)
    (hex : ∃ k, isRoot p (iterP p k x))
    (hex2 : ∃ k, isRoot (p.set x (pf p (pf p x)))
      (iterP (p.set x (pf p (pf p x))) k (pf p (pf p x)))) :
    Nat.find hex2 < Nat.find hex := by
  have hx := lt_of_not_root p x hnr
  have hk0pos : 0 < Nat.find hex := by
    rw [Nat.find_pos]
    exact hnr
  by_cases hpx : isRoot p (pf p x)
  · have hq : pf p (pf p x) = pf p x := hpx
    have hqroot : isRoot p (pf p (pf p x)) := by rw [hq]; exact hpx
    have h0 : isRoot (p.set x (pf p (pf p x)))
        (iterP (p.set x (pf p (pf p x))) 0 (pf p (pf p x))) :=
      (halve_isRoot_iff p x hwf hnr _).mpr hqroot
    have := @Nat.find_le 0
      (fun k => isRoot (p.set x (pf p (pf p x))) (iterP (p.set x (pf p (pf p x))) k (pf p (pf p x))))
      _ hex2 h0
    omega
  · have hk02 : 2 ≤ Nat.find hex := by
      by_contra h
      push_neg at h
      have hspec := Nat.find_spec hex
      have h01 : Nat.find hex = 0 ∨ Nat.find hex = 1 := by omega
      rcases h01 with h01 | h01
      · rw [h01] at hspec
        exact hnr hspec
      · rw [h01] at hspec
        exact hpx hspec
    have havoid : ∀ i, i < Nat.find hex - 2 →
        iterP p i (pf p (pf p x)) ≠ x := by
      intro i hi heq
      have h2 : iterP p (2 + i) x = iterP p i (pf p (pf p x)) := by
        rw [iterP_add]
        rfl
      have hxz : iterP p 0 x = x := rfl
      have := iterP_path_distinct p x hex 0 (2 + i) (by omega) (by omega)
      rw [hxz, h2, heq] at this
      exact this rfl
    have htrans : iterP (p.set x (pf p (pf p x))) (Nat.find hex - 2) (pf p (pf p x)) =
        iterP p (Nat.find hex - 2) (pf p (pf p x)) :=
      iterP_set_eq p x _ _ _ havoid
    have hval : iterP p (Nat.find hex - 2) (pf p (pf p x)) = iterP p (Nat.find hex) x := by
      have h2 : iterP p (2 + (Nat.find hex - 2)) x =
          iterP p (Nat.find hex - 2) (iterP p 2 x) := iterP_add p 2 _ x
      have h3 : 2 + (Nat.find hex - 2) = Nat.find hex := by omega
      rw [h3] at h2
      rw [h2]
      rfl
    have hrne : iterP p (Nat.find hex) x ≠ x := by
      intro heq
      have := iterP_path_distinct p x hex 0 (Nat.find hex) (by omega) le_rfl
      exact this (by rw [heq]; rfl)
    have hroot2 : isRoot (p.set x (pf p (pf p x)))
        (iterP (p.set x (pf p (pf p x))) (Nat.find hex - 2) (pf p (pf p x))) := by
      rw [htrans, hval]
      rcases Nat.lt_trichotomy (iterP p (Nat.find hex) x) x with h | h | h
      · exact (halve_isRoot_iff p x hwf hnr _).mpr (Nat.find_spec hex)
      · exact absurd h hrne
      · exact (halve_isRoot_iff p x hwf hnr _).mpr (Nat.find_spec hex)
    have := @Nat.find_le (Nat.find hex - 2)
      (fun k => isRoot (p.set x (pf p (pf p x))) (iterP (p.set x (pf p (pf p x))) k (pf p (pf p x))))
      _ hex2 hroot2
    omega

theorem find_go :
    ∀ (fuel : Nat) (p : List Nat) (x : Nat), WF p → x < p.length →
      ∀ (hex : ∃ k, isRoot p (iterP p k x)), Nat.find hex < fuel →
      (findAux fuel p x).1.length = p.length ∧ WF (findAux fuel p x).1 ∧
      (∀ y s, Rooted p y s ↔ Rooted (findAux fuel p x).1 y s) ∧
      Rooted p x (findAux fuel p x).2 := by
  intro fuel
  induction fuel with
  | zero => intro p x _ _ hex hlt; omega
  | succ fuel ih =>
    intro p x hwf hx hex hlt
    by_cases hr : pf p x = x
    · have hfa : findAux (fuel + 1) p x = (p, x) := by simp [findAux, hr]
      rw [hfa]
      exact ⟨rfl, hwf, fun y s => Iff.rfl, rooted_self p x hr⟩
    · have hfa : findAux (fuel + 1) p x =
          findAux fuel (p.set x (pf p (pf p x))) (pf p (pf p x)) := by
        simp [findAux, hr]
      rw [hfa]
      have hnr : ¬isRoot p x := hr
      obtain ⟨hwf', hiff⟩ := halve_wf p x hwf hnr
      have hq_lt : pf p (pf p x) < p.length := hwf.1 _ (hwf.1 x hx)
      have hx' : pf p (pf p x) < (p.set x (pf p (pf p x))).length := by
        rw [List.length_set]
        exact hq_lt
      have hex2 : ∃ k, isRoot (p.set x (pf p (pf p x)))
          (iterP (p.set x (pf p (pf p x))) k (pf p (pf p x))) :=
        rooted_exists_iter _ _ (hwf'.2 _)
      have hdep := halve_depth p x hwf hnr hex hex2
      have hrec := ih (p.set x (pf p (pf p x))) (pf p (pf p x)) hwf' hx' hex2 (by omega)
      refine ⟨?_, hrec.2.1, ?_, ?_⟩
      · rw [hrec.1, List.length_set]
      · intro y s
        exact (hiff y s).trans (hrec.2.2.1 y s)
      · have hq : Rooted p (pf p (pf p x))
            (findAux fuel (p.set x (pf p (pf p x))) (pf p (pf p x))).2 := by
          have h2 := hrec.2.2.2
          obtain ⟨s₀, h₀⟩ := hwf.2 (pf p (pf p x))
          have heq := rooted_unique _ _ _ _ h2 ((hiff _ s₀).mp h₀)
          rw [heq]
          exact h₀
        exact rooted_step p x (pf p x) _ rfl
          (rooted_step p (pf p x) (pf p (pf p x)) _ rfl hq)

theorem find_spec (p : List Nat) (x : Nat) (hwf : WF p) (hx : x < p.length) :
    (findAux p.length p x).1.length = p.length ∧ WF (findAux p.length p x).1 ∧
    (∀ y s, Rooted p y s ↔ Rooted (findAux p.length p x).1 y s) ∧
    Rooted p x (findAux p.length p x).2 := by
  have hex := rooted_exists_iter p x (hwf.2 x)
  exact find_go p.length p x hwf hx hex (find_depth_lt p x hwf.1 hx hex)

theorem rootD_spec (p : List Nat) (x : Nat) (hwf : WF p) (hx : x < p.length) :
    Rooted p x (rootD p x) :=
  (find_spec p x hwf hx).2.2.2

theorem equivUF_refl (p : List Nat) (hwf : WF p) (y : Nat) : EquivUF p y y := by
  obtain ⟨r, h⟩ := hwf.2 y
  exact ⟨r, h, h⟩

theorem equivUF_symm (p : List Nat) (y z : Nat) (h : EquivUF p y z) :
    EquivUF p z y := by
  obtain ⟨r, h1, h2⟩ := h
  exact ⟨r, h2, h1⟩

theorem equivUF_trans (p : List Nat) (x y z : Nat) (h1 : EquivUF p x y)
    (h2 : EquivUF p y z) : EquivUF p x z := by
  obtain ⟨r, ha, hb⟩ := h1
  obtain ⟨r', hc, hd⟩ := h2
  have : r = r' := rooted_unique p y r r' hb hc
  subst this
  exact ⟨r, ha, hd⟩

theorem equivUF_congr (p q : List Nat) (h : ∀ y s, Rooted p y s ↔ Rooted q y s) :
    ∀ y z, EquivUF p y z ↔ EquivUF q y z := by
  intro y z
  exact exists_congr fun r => and_congr (h y r) (h z r)

theorem equiv_root_iff (p : List Nat) (_hwf : WF p) (a ra : Nat)
    (hra : isRoot p ra) (haroot : Rooted p a ra) (y : Nat) :
    EquivUF p y ra ↔ EquivUF p y a := by
  constructor
  · intro ⟨r, h1, h2⟩
    have hrr : r = ra := rooted_unique p ra r ra h2 (rooted_self p ra hra)
    rw [hrr] at h1
    exact ⟨ra, h1, haroot⟩
  · intro ⟨r, h1, h2⟩
    have hrr : r = ra := rooted_unique p a r ra h2 haroot
    rw [hrr] at h1
    exact ⟨ra, h1, rooted_self p ra hra⟩

theorem link_root_case (p : List Nat) (ra rb y : Nat) (hrb : isRoot p rb)
    (hne : ra ≠ rb) (hralt : ra < p.length) (hy : isRoot p y) :
    Rooted (p.set ra rb) y (if y = ra then rb else y) := by
  by_cases hyra : y = ra
  · rw [if_pos hyra, hyra]
    refine rooted_step _ ra rb rb (pf_set_self p ra rb hralt) (rooted_self _ rb ?_)
    unfold isRoot
    rw [pf_set_ne p ra rb rb (Ne.symm hne)]
    exact hrb
  · rw [if_neg hyra]
    refine rooted_self _ y ?_
    unfold isRoot
    rw [pf_set_ne p ra rb y hyra]
    exact hy

theorem rooted_linkK (p : List Nat) (ra rb : Nat) (hra : isRoot p ra)
    (hrb : isRoot p rb) (hne : ra ≠ rb) (hralt : ra < p.length) :
    ∀ (k y s : Nat), iterP p k y = s → isRoot p s →
      Rooted (p.set ra rb) y (if s = ra then rb else s) := by
  intro k
  induction k with
  | zero =>
    intro y s he hs
    cases he
    exact link_root_case p ra rb y hrb hne hralt hs
  | succ k ih =>
    intro y s he hs
    by_cases hy : isRoot p y
    · have hsy : s = y := by rw [← he, iterP_of_root p y hy]
      subst hsy
      exact link_root_case p ra rb s hrb hne hralt hy
    · have hyra : y ≠ ra := fun h => hy (h ▸ hra)
      rw [iterP_succ] at he
      exact rooted_step _ y (pf p y) _ (pf_set_ne p ra rb y hyra) (ih (pf p y) s he hs)

theorem link_wf_and_roots (p : List Nat) (ra rb : Nat) (hwf : WF p)
    (hra : isRoot p ra) (hrb : isRoot p rb) (hne : ra ≠ rb)
    (hralt : ra < p.length) (hrblt : rb < p.length) :
    WF (p.set ra rb) ∧
    (∀ y s, Rooted (p.set ra rb) y s ↔
       ∃ s₀, Rooted p y s₀ ∧ s = (if s₀ = ra then rb else s₀)) := by
  have hfwd : ∀ y s₀, Rooted p y s₀ →
      Rooted (p.set ra rb) y (if s₀ = ra then rb else s₀) := by
    intro y s₀ ⟨hr, k, e⟩
    exact rooted_linkK p ra rb hra hrb hne hralt k y s₀ e hr
  have hcl : ∀ z, z < (p.set ra rb).length →
      pf (p.set ra rb) z < (p.set ra rb).length := by
    intro z hz
    rw [List.length_set] at hz ⊢
    by_cases hzra : z = ra
    · rw [hzra, pf_set_self p ra rb hralt]
      exact hrblt
    · rw [pf_set_ne p ra rb z hzra]
      exact hwf.1 z hz
  have hex : ∀ y, ∃ r, Rooted (p.set ra rb) y r := by
    intro y
    obtain ⟨s₀, h₀⟩ := hwf.2 y
    exact ⟨_, hfwd y s₀ h₀⟩
  refine ⟨⟨hcl, hex⟩, fun y s => ⟨?_, ?_⟩⟩
  · intro h'
    obtain ⟨s₀, h₀⟩ := hwf.2 y
    have heq := rooted_unique _ y s _ h' (hfwd y s₀ h₀)
    exact ⟨s₀, h₀, heq⟩
  · intro ⟨s₀, h₀, hs⟩
    rw [hs]
    exact hfwd y s₀ h₀

theorem link_equiv (p : List Nat) (ra rb : Nat) (hwf : WF p)
    (hra : isRoot p ra) (hrb : isRoot p rb) (hne : ra ≠ rb)
    (hralt : ra < p.length) (hrblt : rb < p.length) :
    WF (p.set ra rb) ∧ (p.set ra rb).length = p.length ∧
    (∀ y z, EquivUF (p.set ra rb) y z ↔
      (EquivUF p y z ∨ (EquivUF p y ra ∧ EquivUF p rb z) ∨
       (EquivUF p y rb ∧ EquivUF p ra z))) := by
  obtain ⟨hwf', hchar⟩ := link_wf_and_roots p ra rb hwf hra hrb hne hralt hrblt
  refine ⟨hwf', List.length_set .., fun y z => ?_⟩
  constructor
  · intro ⟨r, h1, h2⟩
    obtain ⟨sy, hy0, hyeq⟩ := (hchar y r).mp h1
    obtain ⟨sz, hz0, hzeq⟩ := (hchar z r).mp h2
    by_cases hya : sy = ra <;> by_cases hza : sz = ra
    · exact Or.inl ⟨ra, hya ▸ hy0, hza ▸ hz0⟩
    · rw [if_pos hya] at hyeq
      rw [if_neg hza] at hzeq
      have hszrb : sz = rb := by rw [← hzeq]; exact hyeq
      exact Or.inr (Or.inl ⟨⟨ra, hya ▸ hy0, rooted_self p ra hra⟩,
        ⟨rb, rooted_self p rb hrb, hszrb ▸ hz0⟩⟩)
    · rw [if_neg hya] at hyeq
      rw [if_pos hza] at hzeq
      have hsyrb : sy = rb := by rw [← hyeq]; exact hzeq
      exact Or.inr (Or.inr ⟨⟨rb, hsyrb ▸ hy0, rooted_self p rb hrb⟩,
        ⟨ra, rooted_self p ra hra, hza ▸ hz0⟩⟩)
    · rw [if_neg hya] at hyeq
      rw [if_neg hza] at hzeq
      have hsyz : sy = sz := by rw [← hyeq]; exact hzeq
      exact Or.inl ⟨sz, hsyz ▸ hy0, hz0⟩
  · intro h
    have hEy : ∀ w s₀, Rooted p w s₀ → Rooted (p.set ra rb) w (if s₀ = ra then rb else s₀) := by
      intro w s₀ h0
      exact (hchar w _).mpr ⟨s₀, h0, rfl⟩
    rcases h with ⟨r, h1, h2⟩ | ⟨⟨r1, hy1, ha1⟩, ⟨r2, hb2, hz2⟩⟩ | ⟨⟨r1, hy1, hb1⟩, ⟨r2, ha2, hz2⟩⟩
    · exact ⟨_, hEy y r h1, hEy z r h2⟩
    · -- y's root = ra (via r1), z's root = rb (via r2): both map to rb
      have hr1 : r1 = ra := rooted_unique p ra r1 ra ha1 (rooted_self p ra hra)
      have hr2 : r2 = rb := rooted_unique p rb r2 rb hb2 (rooted_self p rb hrb)
      rw [hr1] at hy1
      rw [hr2] at hz2
      refine ⟨rb, ?_, ?_⟩
      · have := hEy y ra hy1
        rwa [if_pos rfl] at this
      · have := hEy z rb hz2
        rwa [if_neg (Ne.symm hne)] at this
    · have hr1 : r1 = rb := rooted_unique p rb r1 rb hb1 (rooted_self p rb hrb)
      have hr2 : r2 = ra := rooted_unique p ra r2 ra ha2 (rooted_self p ra hra)
      rw [hr1] at hy1
      rw [hr2] at hz2
      refine ⟨rb, ?_, ?_⟩
      · have := hEy y rb hy1
        rwa [if_neg (Ne.symm hne)] at this
      · have := hEy z ra hz2
        rwa [if_pos rfl] at this

theorem find_fst_parent (uf : _UnionFind) (x : Nat) :
    (uf.find x).1.parent = (findAux uf.parent.length uf.parent x).1 := rfl

theorem find_fst_rank (uf : _UnionFind) (x : Nat) : (uf.find x).1.rank = uf.rank := rfl

theorem find_snd (uf : _UnionFind) (x : Nat) :
    (uf.find x).2 = (findAux uf.parent.length uf.parent x).2 := rfl

theorem union_eq_uCore (uf : _UnionFind) (a b : Nat) :
    uf.union a b =
      uCore ((uf.find a).1.find b).1.parent uf.rank (uf.find a).2
        ((uf.find a).1.find b).2 := rfl

theorem union_core (p2 rk : List Nat) (a b ra rb : Nat) (hwf2 : WF p2)
    (hra2 : Rooted p2 a ra) (hrb2 : Rooted p2 b rb)
    (hralt : ra < p2.length) (hrblt : rb < p2.length) :
    (uCore p2 rk ra rb).parent.length = p2.length ∧ WF (uCore p2 rk ra rb).parent ∧
    ∀ y z, EquivUF (uCore p2 rk ra rb).parent y z ↔
      (EquivUF p2 y z ∨ (EquivUF p2 y a ∧ EquivUF p2 b z) ∨
       (EquivUF p2 y b ∧ EquivUF p2 a z)) := by
  have hra : isRoot p2 ra := hra2.1
  have hrb : isRoot p2 rb := hrb2.1
  have hYA : ∀ y, EquivUF p2 y ra ↔ EquivUF p2 y a :=
    equiv_root_iff p2 hwf2 a ra hra hra2
  have hYB : ∀ y, EquivUF p2 y rb ↔ EquivUF p2 y b :=
    equiv_root_iff p2 hwf2 b rb hrb hrb2
  have hAZ : ∀ z, EquivUF p2 ra z ↔ EquivUF p2 a z := fun z =>
    ⟨fun h => equivUF_symm _ _ _ ((hYA z).mp (equivUF_symm _ _ _ h)),
     fun h => equivUF_symm _ _ _ ((hYA z).mpr (equivUF_symm _ _ _ h))⟩
  have hBZ : ∀ z, EquivUF p2 rb z ↔ EquivUF p2 b z := fun z =>
    ⟨fun h => equivUF_symm _ _ _ ((hYB z).mp (equivUF_symm _ _ _ h)),
     fun h => equivUF_symm _ _ _ ((hYB z).mpr (equivUF_symm _ _ _ h))⟩
  by_cases hrr : ra = rb
  · have hc : uCore p2 rk ra rb = ⟨p2, rk⟩ := by
      simp only [uCore]
      rw [if_pos hrr]
    rw [hc]
    refine ⟨rfl, hwf2, fun y z => ?_⟩
    constructor
    · exact fun h => Or.inl h
    · rintro (h | ⟨h1, h2⟩ | ⟨h1, h2⟩)
      · exact h
      · have hab : EquivUF p2 a b := ⟨ra, hra2, by rw [hrr]; exact hrb2⟩
        exact equivUF_trans _ _ _ _ (equivUF_trans _ _ _ _ h1 hab) h2
      · have hba : EquivUF p2 b a := ⟨ra, by rw [hrr]; exact hrb2, hra2⟩
        exact equivUF_trans _ _ _ _ (equivUF_trans _ _ _ _ h1 hba) h2
  · by_cases hr1 : rk.getD ra 0 < rk.getD rb 0
    · have hc : uCore p2 rk ra rb = ⟨p2.set ra rb, rk⟩ := by
        simp only [uCore]
        rw [if_neg hrr, if_pos hr1]
      rw [hc]
      obtain ⟨hwf', hlen', hiff'⟩ := link_equiv p2 ra rb hwf2 hra hrb hrr hralt hrblt
      refine ⟨hlen', hwf', fun y z => (hiff' y z).trans ?_⟩
      exact or_congr Iff.rfl
        (or_congr (and_congr (hYA y) (hBZ z)) (and_congr (hYB y) (hAZ z)))
    · by_cases hr2 : rk.getD rb 0 < rk.getD ra 0
      · have hc : uCore p2 rk ra rb = ⟨p2.set rb ra, rk⟩ := by
          simp only [uCore]
          rw [if_neg hrr, if_neg hr1, if_pos hr2]
        rw [hc]
        obtain ⟨hwf', hlen', hiff'⟩ :=
          link_equiv p2 rb ra hwf2 hrb hra (Ne.symm hrr) hrblt hralt
        refine ⟨hlen', hwf', fun y z => (hiff' y z).trans ?_⟩
        refine Iff.trans ?_ (or_congr Iff.rfl or_comm)
        exact or_congr Iff.rfl
          (or_congr (and_congr (hYB y) (hAZ z)) (and_congr (hYA y) (hBZ z)))
      · have hc : uCore p2 rk ra rb =
            ⟨p2.set rb ra, rk.set ra (rk.getD ra 0 + 1)⟩ := by
          simp only [uCore]
          rw [if_neg hrr, if_neg hr1, if_neg hr2]
        rw [hc]
        obtain ⟨hwf', hlen', hiff'⟩ :=
          link_equiv p2 rb ra hwf2 hrb hra (Ne.symm hrr) hrblt hralt
        refine ⟨hlen', hwf', fun y z => (hiff' y z).trans ?_⟩
        refine Iff.trans ?_ (or_congr Iff.rfl or_comm)
        exact or_congr Iff.rfl
          (or_congr (and_congr (hYB y) (hAZ z)) (and_congr (hYA y) (hBZ z)))

theorem union_spec (uf : _UnionFind) (a b : Nat) (hwf : WF uf.parent)
    (ha : a < uf.parent.length) (hb : b < uf.parent.length) :
    (uf.union a b).parent.length = uf.parent.length ∧ WF (uf.union a b).parent ∧
    ∀ y z, EquivUF (uf.union a b).parent y z ↔
      (EquivUF uf.parent y z ∨ (EquivUF uf.parent y a ∧ EquivUF uf.parent b z) ∨
       (EquivUF uf.parent y b ∧ EquivUF uf.parent a z)) := by
  obtain ⟨hlen1, hwf1, hiff1, hroot1⟩ := find_spec uf.parent a hwf ha
  have hb1 : b < (findAux uf.parent.length uf.parent a).1.length := by
    rw [hlen1]; exact hb
  obtain ⟨hlen2, hwf2, hiff2, hroot2⟩ :=
    find_spec (findAux uf.parent.length uf.parent a).1 b hwf1 hb1
  rw [union_eq_uCore uf a b]
  simp only [find_fst_parent, find_snd]
  generalize hRA : (findAux uf.parent.length uf.parent a).2 = RA at hroot1 ⊢
  generalize hP1 : (findAux uf.parent.length uf.parent a).1 = P1
    at hlen1 hwf1 hiff1 hlen2 hwf2 hiff2 hroot2 ⊢
  generalize hRB : (findAux P1.length P1 b).2 = RB at hroot2 ⊢
  generalize hP2 : (findAux P1.length P1 b).1 = P2 at hlen2 hwf2 hiff2 ⊢
  have hiff : ∀ y s, Rooted uf.parent y s ↔ Rooted P2 y s := fun y s =>
    (hiff1 y s).trans (hiff2 y s)
  have hEq : ∀ y z, EquivUF uf.parent y z ↔ EquivUF P2 y z :=
    equivUF_congr _ _ hiff
  have hra2 : Rooted P2 a RA := (hiff a RA).mp hroot1
  have hrb2 : Rooted P2 b RB := (hiff2 b RB).mp hroot2
  have halt2 : a < P2.length := by rw [hlen2, hlen1]; exact ha
  have hblt2 : b < P2.length := by rw [hlen2, hlen1]; exact hb
  have hRAlt : RA < P2.length := rooted_target_lt P2 hwf2.1 a RA halt2 hra2
  have hRBlt : RB < P2.length := rooted_target_lt P2 hwf2.1 b RB hblt2 hrb2
  obtain ⟨hcl, hcwf, hciff⟩ :=
    union_core P2 uf.rank a b RA RB hwf2 hra2 hrb2 hRAlt hRBlt
  refine ⟨by rw [hcl, hlen2, hlen1], hcwf, fun y z => (hciff y z).trans ?_⟩
  exact or_congr (hEq y z).symm
    (or_congr (and_congr (hEq y a).symm (hEq b z).symm)
      (and_congr (hEq y b).symm (hEq a z).symm))

theorem find_call_spec (uf : _UnionFind) (x : Nat) (hwf : WF uf.parent)
    (hx : x < uf.parent.length) :
    (uf.find x).1.parent.length = uf.parent.length ∧ WF (uf.find x).1.parent ∧
    (∀ y s, Rooted uf.parent y s ↔ Rooted (uf.find x).1.parent y s) ∧
    Rooted uf.parent x (uf.find x).2 := by
  rw [find_fst_parent, find_snd]
  exact find_spec uf.parent x hwf hx

theorem pf_range (n x : Nat) : pf (List.range n) x = x := by
  unfold pf
  rcases Nat.lt_or_ge x n with h | h
  · rw [List.getD_eq_getElem?_getD, List.getElem?_range h]
    rfl
  · exact List.getD_eq_default _ _ (by rw [List.length_range]; exact h)

theorem init_spec (n : Nat) :
    (_UnionFind.init n).parent.length = n ∧ WF (_UnionFind.init n).parent ∧
    ∀ y z, EquivUF (_UnionFind.init n).parent y z ↔ y = z := by
  have hroot : ∀ x, isRoot (List.range n) x := fun x => pf_range n x
  refine ⟨List.length_range n, ⟨?_, ?_⟩, ?_⟩
  · intro x hx
    show pf (List.range n) x < _
    rw [pf_range n x]
    exact hx
  · intro x
    exact ⟨x, rooted_self _ x (hroot x)⟩
  · intro y z
    constructor
    · intro ⟨r, h1, h2⟩
      have hy : r = y := rooted_unique _ y r y h1 (rooted_self _ y (hroot y))
      have hz : r = z := rooted_unique _ z r z h2 (rooted_self _ z (hroot z))
      rw [← hy, hz]
    · intro h
      rw [h]
      exact ⟨z, rooted_self _ z (hroot z), rooted_self _ z (hroot z)⟩

/-- Invariant of every reachable `_UnionFind` state: the parent array keeps
length `n` and satisfies the forest well-formedness `WF`. -/
theorem reachable_wf (n : Nat) (uf : _UnionFind) (h : Reachable n uf) :
    uf.parent.length = n ∧ WF uf.parent := by
  induction h with
  | init => exact ⟨(init_spec n).1, (init_spec n).2.1⟩
  | find huf hx ih =>
    obtain ⟨hlen, hwf⟩ := ih
    obtain ⟨h1, h2, _, _⟩ := find_call_spec _ _ hwf (hlen ▸ hx)
    exact ⟨h1.trans hlen, h2⟩
  | union huf ha hb ih =>
    obtain ⟨hlen, hwf⟩ := ih
    obtain ⟨h1, h2, _⟩ := union_spec _ _ _ hwf (hlen ▸ ha) (hlen ▸ hb)
    exact ⟨h1.trans hlen, h2⟩

/-- **C10.** In every `_UnionFind` state reachable from `__init__(n)` by any
sequence of `union` and `find` calls on indices `< n`, the parent array
encodes an acyclic forest over `0..n-1`: it keeps length `n`, parent
pointers of in-range indices stay in range, and following parent pointers
from any index reaches a root `r` with `parent[r] == r`; hence `find(x)`
(whose `while` loop is modelled with fuel `parent.length`, proved
sufficient in `find_spec`) returns such a root for every `x < n`. -/
theorem unionfind_reachable_forest (n : Nat) (uf : _UnionFind)
    (h : Reachable n uf) :
    uf.parent.length = n ∧
    (∀ x, x < n → pf uf.parent x < n) ∧
    (∀ x, ∃ k, isRoot uf.parent (iterP uf.parent k x)) ∧
    (∀ x, x < n → Rooted uf.parent x ((uf.find x).2) ∧
       isRoot uf.parent ((uf.find x).2)) := by
  obtain ⟨hlen, hwf⟩ := reachable_wf n uf h
  refine ⟨hlen, ?_, ?_, ?_⟩
  · intro x hx
    have hb := hwf.1 x (by rw [hlen]; exact hx)
    rwa [hlen] at hb
  · intro x
    obtain ⟨r, hr, k, e⟩ := hwf.2 x
    exact ⟨k, by rw [e]; exact hr⟩
  · intro x hx
    have h4 := (find_call_spec uf x hwf (by rw [hlen]; exact hx)).2.2.2
    exact ⟨h4, h4.1⟩

theorem unionfind_reachable_forest_witness :
    Reachable 3 (((_UnionFind.init 3).union 0 1).find 2).1 ∧
    ((((_UnionFind.init 3).union 0 1).find 2).1.parent.length = 3 ∧
     (∀ x, x < 3 →
        pf (((_UnionFind.init 3).union 0 1).find 2).1.parent x < 3) ∧
     (∀ x, ∃ k, isRoot (((_UnionFind.init 3).union 0 1).find 2).1.parent
        (iterP (((_UnionFind.init 3).union 0 1).find 2).1.parent k x)) ∧
     (∀ x, x < 3 →
        Rooted (((_UnionFind.init 3).union 0 1).find 2).1.parent x
          (((((_UnionFind.init 3).union 0 1).find 2).1.find x).2) ∧
        isRoot (((_UnionFind.init 3).union 0 1).find 2).1.parent
          (((((_UnionFind.init 3).union 0 1).find 2).1.find x).2))) :=
  have hr : Reachable 3 (((_UnionFind.init 3).union 0 1).find 2).1 :=
    Reachable.find (Reachable.union Reachable.init (by decide) (by decide))
      (by decide)
  ⟨hr, unionfind_reachable_forest 3 _ hr⟩

/-! ### The union loop builds the transitive closure of accepted edges -/

theorem eqvGen_le {A B : Nat → Nat → Prop}
    (h : ∀ u v, A u v → Relation.EqvGen B u v) :
    ∀ u v, Relation.EqvGen A u v → Relation.EqvGen B u v := by
  intro u v huv
  induction huv with
  | rel x y hxy => exact h x y hxy
  | refl x => exact Relation.EqvGen.refl x
  | symm x y _ ih => exact Relation.EqvGen.symm x y ih
  | trans x y z _ _ ih1 ih2 => exact Relation.EqvGen.trans x y z ih1 ih2

theorem equivUF_equivalence (p : List Nat) (hwf : WF p) :
    Equivalence (EquivUF p) :=
  ⟨equivUF_refl p hwf, fun h => equivUF_symm _ _ _ h,
   fun h1 h2 => equivUF_trans _ _ _ _ h1 h2⟩

theorem edgeIn_nil (sim : Nat → Nat → ℚ) (t : ℚ) (u v : Nat) :
    ¬ edgeIn sim t [] u v := by
  rintro (⟨h, _⟩ | ⟨h, _⟩) <;> exact (List.not_mem_nil _ h)

theorem edgeIn_cons_of_not_accepted (sim : Nat → Nat → ℚ) (t : ℚ)
    (pr : Nat × Nat) (ps : List (Nat × Nat)) (hno : ¬ t ≤ sim pr.1 pr.2)
    (u v : Nat) : edgeIn sim t (pr :: ps) u v ↔ edgeIn sim t ps u v := by
  constructor
  · rintro (⟨h, hs⟩ | ⟨h, hs⟩)
    · rcases List.mem_cons.mp h with he | hm
      · exact absurd (he ▸ hs) hno
      · exact Or.inl ⟨hm, hs⟩
    · rcases List.mem_cons.mp h with he | hm
      · exact absurd (he ▸ hs) hno
      · exact Or.inr ⟨hm, hs⟩
  · rintro (⟨h, hs⟩ | ⟨h, hs⟩)
    · exact Or.inl ⟨List.mem_cons_of_mem pr h, hs⟩
    · exact Or.inr ⟨List.mem_cons_of_mem pr h, hs⟩

theorem edgeIn_cons_le (sim : Nat → Nat → ℚ) (t : ℚ) (pr : Nat × Nat)
    (ps : List (Nat × Nat)) (u v : Nat) (h : edgeIn sim t ps u v) :
    edgeIn sim t (pr :: ps) u v := by
  rcases h with ⟨h, hs⟩ | ⟨h, hs⟩
  · exact Or.inl ⟨List.mem_cons_of_mem pr h, hs⟩
  · exact Or.inr ⟨List.mem_cons_of_mem pr h, hs⟩

/-- Correctness of the union loop: starting from a well-formed state, the
resulting union-find equivalence is the equivalence closure of the initial
equivalence joined with the accepted edges of the processed pair list. -/
theorem applyUnions_spec (sim : Nat → Nat → ℚ) (t : ℚ) :
    ∀ (ps : List (Nat × Nat)) (uf : _UnionFind), WF uf.parent →
      (∀ pr ∈ ps, pr.1 < uf.parent.length ∧ pr.2 < uf.parent.length) →
      (applyUnions sim t uf ps).parent.length = uf.parent.length ∧
      WF (applyUnions sim t uf ps).parent ∧
      ∀ y z, EquivUF (applyUnions sim t uf ps).parent y z ↔
        Relation.EqvGen (fun u v => EquivUF uf.parent u v ∨ edgeIn sim t ps u v) y z := by
  intro ps
  induction ps with
  | nil =>
    intro uf hwf _
    refine ⟨rfl, hwf, fun y z => ?_⟩
    show EquivUF uf.parent y z ↔ _
    constructor
    · intro h
      exact Relation.EqvGen.rel y z (Or.inl h)
    · intro h
      have hle : ∀ u v, (fun u v => EquivUF uf.parent u v ∨ edgeIn sim t [] u v) u v →
          EquivUF uf.parent u v := by
        rintro u v (h' | h')
        · exact h'
        · exact absurd h' (edgeIn_nil sim t u v)
      have := Relation.EqvGen.mono hle h
      exact (Equivalence.eqvGen_iff (equivUF_equivalence uf.parent hwf)).mp this
  | cons pr ps ih =>
    intro uf hwf hmem
    have hstep : applyUnions sim t uf (pr :: ps) =
        applyUnions sim t (if t ≤ sim pr.1 pr.2 then uf.union pr.1 pr.2 else uf) ps := by
      simp only [applyUnions, List.foldl_cons]
    by_cases hacc : t ≤ sim pr.1 pr.2
    · obtain ⟨ha, hb⟩ := hmem pr (List.mem_cons_self pr ps)
      obtain ⟨hulen, huwf, huiff⟩ := union_spec uf pr.1 pr.2 hwf ha hb
      have hmem' : ∀ q ∈ ps, q.1 < (uf.union pr.1 pr.2).parent.length ∧
          q.2 < (uf.union pr.1 pr.2).parent.length := by
        intro q hq
        rw [hulen]
        exact hmem q (List.mem_cons_of_mem pr hq)
      obtain ⟨hlen', hwf', hiff'⟩ := ih (uf.union pr.1 pr.2) huwf hmem'
      rw [hstep, if_pos hacc]
      refine ⟨hlen'.trans hulen, hwf', fun y z => (hiff' y z).trans ?_⟩
      constructor
      · refine eqvGen_le ?_ y z
        rintro u v (hE | hedge)
        · rcases (huiff u v).mp hE with h | ⟨h1, h2⟩ | ⟨h1, h2⟩
          · exact Relation.EqvGen.rel u v (Or.inl h)
          · refine Relation.EqvGen.trans u pr.2 v
              (Relation.EqvGen.trans u pr.1 pr.2
                (Relation.EqvGen.rel _ _ (Or.inl h1))
                (Relation.EqvGen.rel _ _
                  (Or.inr (Or.inl ⟨List.mem_cons_self pr ps, hacc⟩))))
              (Relation.EqvGen.rel _ _ (Or.inl h2))
          · refine Relation.EqvGen.trans u pr.1 v
              (Relation.EqvGen.trans u pr.2 pr.1
                (Relation.EqvGen.rel _ _ (Or.inl h1))
                (Relation.EqvGen.rel _ _
                  (Or.inr (Or.inr ⟨List.mem_cons_self pr ps, hacc⟩))))
              (Relation.EqvGen.rel _ _ (Or.inl h2))
        · exact Relation.EqvGen.rel u v (Or.inr (edgeIn_cons_le sim t pr ps u v hedge))
      · refine eqvGen_le ?_ y z
        rintro u v (hE | hedge)
        · exact Relation.EqvGen.rel u v (Or.inl ((huiff u v).mpr (Or.inl hE)))
        · rcases hedge with ⟨hm, hs⟩ | ⟨hm, hs⟩
          · rcases List.mem_cons.mp hm with he | hm'
            · -- (u, v) = pr: u ~ v already holds in the union state
              have h1 : pr.1 = u := by rw [← he]
              have h2 : pr.2 = v := by rw [← he]
              refine Relation.EqvGen.rel u v (Or.inl ((huiff u v).mpr ?_))
              refine Or.inr (Or.inl ⟨?_, ?_⟩)
              · rw [h1]
                exact equivUF_refl _ hwf u
              · rw [h2]
                exact equivUF_refl _ hwf v
            · exact Relation.EqvGen.rel u v (Or.inr (Or.inl ⟨hm', hs⟩))
          · rcases List.mem_cons.mp hm with he | hm'
            · have h1 : pr.1 = v := by rw [← he]
              have h2 : pr.2 = u := by rw [← he]
              refine Relation.EqvGen.rel u v (Or.inl ((huiff u v).mpr ?_))
              refine Or.inr (Or.inr ⟨?_, ?_⟩)
              · rw [h2]
                exact equivUF_refl _ hwf u
              · rw [h1]
                exact equivUF_refl _ hwf v
            · exact Relation.EqvGen.rel u v (Or.inr (Or.inr ⟨hm', hs⟩))
    · obtain ⟨hlen', hwf', hiff'⟩ := ih uf hwf
        (fun q hq => hmem q (List.mem_cons_of_mem pr hq))
      rw [hstep, if_neg hacc]
      refine ⟨hlen', hwf', fun y z => (hiff' y z).trans ?_⟩
      constructor
      · refine eqvGen_le ?_ y z
        rintro u v (hE | hedge)
        · exact Relation.EqvGen.rel u v (Or.inl hE)
        · exact Relation.EqvGen.rel u v (Or.inr (edgeIn_cons_le sim t pr ps u v hedge))
      · refine eqvGen_le ?_ y z
        rintro u v (hE | hedge)
        · exact Relation.EqvGen.rel u v (Or.inl hE)
        · exact Relation.EqvGen.rel u v
            (Or.inr ((edgeIn_cons_of_not_accepted sim t pr ps hacc u v).mp hedge))

theorem mem_allPairs (n u v : Nat) : (u, v) ∈ allPairs n ↔ u < v ∧ v < n := by
  simp only [allPairs, List.mem_flatMap, List.mem_map, List.mem_range,
    List.mem_range'_1]
  constructor
  · rintro ⟨i, hi, j, ⟨hj1, hj2⟩, he⟩
    injection he with e1 e2
    omega
  · rintro ⟨huv, hvn⟩
    exact ⟨u, by omega, v, by omega, rfl⟩

theorem edgeIn_allPairs_iff (n : Nat) (sim : Nat → Nat → ℚ) (t : ℚ)
    (u v : Nat) : edgeIn sim t (allPairs n) u v ↔ AdjI n sim t u v := by
  unfold edgeIn AdjI
  rw [mem_allPairs, mem_allPairs]
  constructor
  · rintro (⟨⟨h1, h2⟩, h3⟩ | ⟨⟨h1, h2⟩, h3⟩)
    · exact Or.inl ⟨h1, h2, h3⟩
    · exact Or.inr ⟨h1, h2, h3⟩
  · rintro (⟨h1, h2, h3⟩ | ⟨h1, h2, h3⟩)
    · exact Or.inl ⟨⟨h1, h2⟩, h3⟩
    · exact Or.inr ⟨⟨h1, h2⟩, h3⟩

/-- The union-find state after the whole union loop of `cluster_items`:
well-formed, of size `n`, and its equivalence is exactly the equivalence
closure of the accepted-edge adjacency `AdjI`. -/
theorem ufFinal_spec (n : Nat) (sim : Nat → Nat → ℚ) (t : ℚ) :
    (applyUnions sim t (_UnionFind.init n) (allPairs n)).parent.length = n ∧
    WF (applyUnions sim t (_UnionFind.init n) (allPairs n)).parent ∧
    ∀ y z, EquivUF (applyUnions sim t (_UnionFind.init n) (allPairs n)).parent y z ↔
      Relation.EqvGen (AdjI n sim t) y z := by
  obtain ⟨hilen, hiwf, hieq⟩ := init_spec n
  have hmem : ∀ pr ∈ allPairs n, pr.1 < (_UnionFind.init n).parent.length ∧
      pr.2 < (_UnionFind.init n).parent.length := by
    intro pr hpr
    have hb := (mem_allPairs n pr.1 pr.2).mp hpr
    rw [hilen]
    omega
  obtain ⟨hlen, hwf, hiff⟩ :=
    applyUnions_spec sim t (allPairs n) (_UnionFind.init n) hiwf hmem
  refine ⟨hlen.trans hilen, hwf, fun y z => (hiff y z).trans ?_⟩
  constructor
  · refine eqvGen_le ?_ y z
    rintro u v (hE | hedge)
    · exact ((hieq u v).mp hE) ▸ Relation.EqvGen.refl u
    · exact Relation.EqvGen.rel u v ((edgeIn_allPairs_iff n sim t u v).mp hedge)
  · refine eqvGen_le ?_ y z
    intro u v h
    exact Relation.EqvGen.rel u v
      (Or.inr ((edgeIn_allPairs_iff n sim t u v).mpr h))

/-! ### The grouping loop: `groups.setdefault(r, []).append(i)` -/

theorem rootD_eq_iff (p : List Nat) (hwf : WF p) (i j : Nat)
    (hi : i < p.length) (hj : j < p.length) :
    rootD p i = rootD p j ↔ EquivUF p i j := by
  constructor
  · intro h
    exact ⟨rootD p j, h ▸ rootD_spec p i hwf hi, rootD_spec p j hwf hj⟩
  · intro ⟨r, h1, h2⟩
    have e1 : rootD p i = r := rooted_unique p i _ _ (rootD_spec p i hwf hi) h1
    have e2 : rootD p j = r := rooted_unique p j _ _ (rootD_spec p j hwf hj) h2
    rw [e1, e2]

theorem groupLoop_cons (i : Nat) (is : List Nat) (uf : _UnionFind)
    (gs : List (Nat × List Nat)) :
    groupLoop (i :: is) uf gs =
      groupLoop is (uf.find i).1 (addToGroup gs (uf.find i).2 i) := rfl

/-- The stateful grouping loop computes the same association list as a pure
fold keyed by the (state-independent) canonical root `rootD p0 i`. -/
theorem groupLoop_eq (p0 : List Nat) (hwf0 : WF p0) :
    ∀ (xs : List Nat) (uf : _UnionFind) (gs : List (Nat × List Nat)),
      WF uf.parent → uf.parent.length = p0.length →
      (∀ y s, Rooted p0 y s ↔ Rooted uf.parent y s) →
      (∀ i ∈ xs, i < p0.length) →
      (groupLoop xs uf gs).2 =
        xs.foldl (fun g i => addToGroup g (rootD p0 i) i) gs := by
  intro xs
  induction xs with
  | nil => intro uf gs _ _ _ _; rfl
  | cons i is ih =>
    intro uf gs hwf hlen hiff hmem
    have hi : i < uf.parent.length := by
      rw [hlen]; exact hmem i (List.mem_cons_self i is)
    obtain ⟨hl, hw, hif, hr⟩ := find_call_spec uf i hwf hi
    have hkey : (uf.find i).2 = rootD p0 i := by
      have h1 : Rooted p0 i ((uf.find i).2) := (hiff i _).mpr hr
      exact rooted_unique p0 i _ _ h1
        (rootD_spec p0 i hwf0 (hmem i (List.mem_cons_self i is)))
    rw [groupLoop_cons, List.foldl_cons, hkey]
    exact ih (uf.find i).1 _ hw (hl.trans hlen)
      (fun y s => (hiff y s).trans (hif y s))
      (fun j hj => hmem j (List.mem_cons_of_mem i hj))

theorem gVal_addToGroup_same (r i : Nat) :
    ∀ gs, gVal (addToGroup gs r i) r = gVal gs r ++ [i] := by
  intro gs
  induction gs with
  | nil => simp [addToGroup, gVal]
  | cons e rest ih =>
    obtain ⟨k, l⟩ := e
    by_cases hk : k = r
    · simp [addToGroup, gVal, hk]
    · simp [addToGroup, gVal, hk, ih]

theorem gVal_addToGroup_ne (r i r' : Nat) (h : r' ≠ r) :
    ∀ gs, gVal (addToGroup gs r i) r' = gVal gs r' := by
  intro gs
  induction gs with
  | nil => simp [addToGroup, gVal, Ne.symm h]
  | cons e rest ih =>
    obtain ⟨k, l⟩ := e
    by_cases hk : k = r
    · simp [addToGroup, gVal, hk, Ne.symm h]
    · simp [addToGroup, gVal, hk, ih]

theorem keys_addToGroup (r i : Nat) :
    ∀ gs : List (Nat × List Nat),
      (addToGroup gs r i).map Prod.fst =
        if r ∈ gs.map Prod.fst then gs.map Prod.fst
        else gs.map Prod.fst ++ [r] := by
  intro gs
  induction gs with
  | nil => simp [addToGroup]
  | cons e rest ih =>
    obtain ⟨k, l⟩ := e
    by_cases hk : k = r
    · simp [addToGroup, hk]
    · simp only [addToGroup, if_neg hk, List.map_cons, ih]
      by_cases hm : r ∈ rest.map Prod.fst
      · rw [if_pos hm, if_pos (List.mem_cons_of_mem k hm)]
      · have h2 : r ∉ (k :: rest.map Prod.fst) := by
          intro hmem
          rcases List.mem_cons.mp hmem with he | hm'
          · exact hk he.symm
          · exact hm hm'
        rw [if_neg hm, if_neg h2]
        simp

theorem nodup_keys_addToGroup (r i : Nat) (gs : List (Nat × List Nat))
    (h : (gs.map Prod.fst).Nodup) :
    ((addToGroup gs r i).map Prod.fst).Nodup := by
  rw [keys_addToGroup]
  by_cases hm : r ∈ gs.map Prod.fst
  · rwa [if_pos hm]
  · rw [if_neg hm]
    simp [List.nodup_append, h, hm]

theorem values_eq (gs : List (Nat × List Nat))
    (hnd : (gs.map Prod.fst).Nodup) :
    gs.map Prod.snd = (gs.map Prod.fst).map (gVal gs) := by
  induction gs with
  | nil => rfl
  | cons e rest ih =>
    obtain ⟨k, l⟩ := e
    simp only [List.map_cons] at hnd ⊢
    have hnd1 : k ∉ rest.map Prod.fst := (List.nodup_cons.mp hnd).1
    have hnd2 := (List.nodup_cons.mp hnd).2
    congr 1
    · simp [gVal]
    · rw [ih hnd2]
      refine List.map_congr_left ?_
      intro r hrm
      have hk : ¬ k = r := fun h => hnd1 (h ▸ hrm)
      simp [gVal, hk]

theorem foldl_gVal (k : Nat → Nat) :
    ∀ (xs : List Nat) (gs : List (Nat × List Nat)) (r : Nat),
      gVal (xs.foldl (fun g i => addToGroup g (k i) i) gs) r =
        gVal gs r ++ xs.filter (fun i => k i == r) := by
  intro xs
  induction xs with
  | nil => intro gs r; simp
  | cons i is ih =>
    intro gs r
    simp only [List.foldl_cons, List.filter_cons]
    by_cases hk : k i = r
    · rw [ih, hk, gVal_addToGroup_same]
      simp [hk]
    · rw [ih, gVal_addToGroup_ne (k i) i r (fun h => hk h.symm)]
      simp [hk]

theorem foldl_keys (k : Nat → Nat) :
    ∀ (xs : List Nat) (gs : List (Nat × List Nat)) (r : Nat),
      (r ∈ (xs.foldl (fun g i => addToGroup g (k i) i) gs).map Prod.fst ↔
        r ∈ gs.map Prod.fst ∨ ∃ i ∈ xs, k i = r) := by
  intro xs
  induction xs with
  | nil => intro gs r; simp
  | cons i is ih =>
    intro gs r
    simp only [List.foldl_cons]
    rw [ih, keys_addToGroup]
    by_cases hm : k i ∈ gs.map Prod.fst
    · rw [if_pos hm]
      constructor
      · rintro (h | ⟨i', hi', he⟩)
        · exact Or.inl h
        · exact Or.inr ⟨i', List.mem_cons_of_mem i hi', he⟩
      · rintro (h | ⟨i', hi', he⟩)
        · exact Or.inl h
        · rcases List.mem_cons.mp hi' with he' | hm'
          · exact Or.inl (by rw [← he, he']; exact hm)
          · exact Or.inr ⟨i', hm', he⟩
    · rw [if_neg hm]
      rw [List.mem_append, List.mem_singleton]
      constructor
      · rintro ((h | h) | ⟨i', hi', he⟩)
        · exact Or.inl h
        · exact Or.inr ⟨i, List.mem_cons_self i is, h.symm⟩
        · exact Or.inr ⟨i', List.mem_cons_of_mem i hi', he⟩
      · rintro (h | ⟨i', hi', he⟩)
        · exact Or.inl (Or.inl h)
        · rcases List.mem_cons.mp hi' with he' | hm'
          · exact Or.inl (Or.inr (by rw [← he, he']))
          · exact Or.inr ⟨i', hm', he⟩

theorem foldl_nodup_keys (k : Nat → Nat) :
    ∀ (xs : List Nat) (gs : List (Nat × List Nat)),
      (gs.map Prod.fst).Nodup →
      ((xs.foldl (fun g i => addToGroup g (k i) i) gs).map Prod.fst).Nodup := by
  intro xs
  induction xs with
  | nil => intro gs h; exact h
  | cons i is ih =>
    intro gs h
    simp only [List.foldl_cons]
    exact ih _ (nodup_keys_addToGroup (k i) i gs h)

theorem cluster_groups_eq_fold (n : Nat) (sim : Nat → Nat → ℚ) (t : ℚ) :
    cluster_groups n sim t =
      ((List.range n).foldl
        (fun g i => addToGroup g
          (rootD (applyUnions sim t (_UnionFind.init n) (allPairs n)).parent i) i)
        []).map Prod.snd := by
  obtain ⟨hlen, hwf, _⟩ := ufFinal_spec n sim t
  show (List.map Prod.snd
      (groupLoop (List.range n) (applyUnions sim t (_UnionFind.init n) (allPairs n))
        []).2) = _
  congr 1
  exact groupLoop_eq _ hwf (List.range n) _ [] hwf rfl (fun y s => Iff.rfl)
    (fun i hi => by rw [hlen]; exact List.mem_range.mp hi)

/-- Full characterization of the index-level Grouper output: nonempty
clusters of in-range indices, every index covered, clusters pairwise
disjoint, and membership in the cluster of `i` is exactly equivalence-closure
reachability from `i` through accepted edges. -/
theorem cluster_groups_core (n : Nat) (sim : Nat → Nat → ℚ) (t : ℚ) :
    (∀ g ∈ cluster_groups n sim t, g ≠ []) ∧
    (∀ g ∈ cluster_groups n sim t, ∀ i ∈ g, i < n) ∧
    (∀ i, i < n → ∃ g ∈ cluster_groups n sim t, i ∈ g) ∧
    List.Pairwise (fun g h => ∀ x ∈ g, x ∉ h) (cluster_groups n sim t) ∧
    (∀ g ∈ cluster_groups n sim t, ∀ i ∈ g, ∀ j,
       (j ∈ g ↔ j < n ∧ Relation.EqvGen (AdjI n sim t) i j)) := by
  obtain ⟨hlen, hwf, hiffE⟩ := ufFinal_spec n sim t
  rw [cluster_groups_eq_fold n sim t]
  generalize hpF : (applyUnions sim t (_UnionFind.init n) (allPairs n)).parent = pF
    at hlen hwf hiffE ⊢
  have hval : ∀ r,
      gVal ((List.range n).foldl (fun g i => addToGroup g (rootD pF i) i) []) r =
        (List.range n).filter (fun i => rootD pF i == r) := by
    intro r
    rw [foldl_gVal (fun i => rootD pF i) (List.range n) [] r]
    rfl
  have hkeys : ∀ r,
      (r ∈ ((List.range n).foldl (fun g i => addToGroup g (rootD pF i) i) []).map
          Prod.fst ↔ ∃ i ∈ List.range n, rootD pF i = r) := by
    intro r
    rw [foldl_keys (fun i => rootD pF i) (List.range n) [] r]
    simp
  have hnd : (((List.range n).foldl (fun g i => addToGroup g (rootD pF i) i)
      []).map Prod.fst).Nodup :=
    foldl_nodup_keys (fun i => rootD pF i) (List.range n) [] (by simp)
  have hvals :
      ((List.range n).foldl (fun g i => addToGroup g (rootD pF i) i) []).map
          Prod.snd =
        (((List.range n).foldl (fun g i => addToGroup g (rootD pF i) i) []).map
          Prod.fst).map
          (gVal ((List.range n).foldl (fun g i => addToGroup g (rootD pF i) i) [])) :=
    values_eq _ hnd
  generalize hG : (List.range n).foldl (fun g i => addToGroup g (rootD pF i) i) [] = G
    at hval hkeys hnd hvals ⊢
  have hmemval : ∀ r x, x ∈ gVal G r ↔ x < n ∧ rootD pF x = r := by
    intro r x
    rw [hval r, List.mem_filter, List.mem_range]
    exact and_congr Iff.rfl (by rw [beq_iff_eq])
  refine ⟨?_, ?_, ?_, ?_, ?_⟩
  · intro g hg
    rw [hvals] at hg
    obtain ⟨r, hr, he⟩ := List.mem_map.mp hg
    obtain ⟨i, hi, hki⟩ := (hkeys r).mp hr
    have hmem : i ∈ gVal G r := (hmemval r i).mpr ⟨List.mem_range.mp hi, hki⟩
    exact List.ne_nil_of_mem (he ▸ hmem)
  · intro g hg i hig
    rw [hvals] at hg
    obtain ⟨r, hr, he⟩ := List.mem_map.mp hg
    exact ((hmemval r i).mp (he ▸ hig)).1
  · intro i hi
    refine ⟨gVal G (rootD pF i), ?_, ?_⟩
    · rw [hvals]
      exact List.mem_map.mpr ⟨rootD pF i,
        (hkeys _).mpr ⟨i, List.mem_range.mpr hi, rfl⟩, rfl⟩
    · exact (hmemval _ i).mpr ⟨hi, rfl⟩
  · rw [hvals, List.pairwise_map]
    refine List.Pairwise.imp ?_ hnd
    intro r s hrs x hx hx'
    exact hrs (((hmemval r x).mp hx).2 ▸ ((hmemval s x).mp hx').2)
  · intro g hg i hig j
    rw [hvals] at hg
    obtain ⟨r, hr, he⟩ := List.mem_map.mp hg
    obtain ⟨hin, hki⟩ := (hmemval r i).mp (he ▸ hig)
    have hin' : i < pF.length := by rw [hlen]; exact hin
    constructor
    · intro hjg
      obtain ⟨hjn, hkj⟩ := (hmemval r j).mp (he ▸ hjg)
      have hjn' : j < pF.length := by rw [hlen]; exact hjn
      have hE : EquivUF pF j i :=
        (rootD_eq_iff pF hwf j i hjn' hin').mp (by rw [hkj, hki])
      exact ⟨hjn, Relation.EqvGen.symm j i ((hiffE j i).mp hE)⟩
    · rintro ⟨hjn, hEq⟩
      have hjn' : j < pF.length := by rw [hlen]; exact hjn
      have hE : EquivUF pF j i := (hiffE j i).mpr (Relation.EqvGen.symm i j hEq)
      have hkj : rootD pF j = r :=
        ((rootD_eq_iff pF hwf j i hjn' hin').mpr hE).trans hki
      rw [← he]
      exact (hmemval r j).mpr ⟨hjn, hkj⟩

/-- For a symmetric similarity matrix the equivalence closure of the
half-matrix adjacency read by the loop (`i < j`, `sim[i, j] ≥ t`) coincides
with path-connectivity through above-threshold pairs. -/
theorem eqvGen_adjI_iff_simPath (n : Nat) (sim : Nat → Nat → ℚ) (t : ℚ)
    (hsym : ∀ u v, sim u v = sim v u) (i j : Nat) :
    Relation.EqvGen (AdjI n sim t) i j ↔ SimPath n sim t i j := by
  have hAS : ∀ u v, AdjI n sim t u v →
      (u ≠ v ∧ u < n ∧ v < n ∧ t ≤ sim u v) := by
    rintro u v (⟨h1, h2, h3⟩ | ⟨h1, h2, h3⟩)
    · exact ⟨Nat.ne_of_lt h1, lt_trans h1 h2, h2, h3⟩
    · refine ⟨(Nat.ne_of_lt h1).symm, h2, lt_trans h1 h2, ?_⟩
      rw [hsym u v]
      exact h3
  have hSA : ∀ u v, (u ≠ v ∧ u < n ∧ v < n ∧ t ≤ sim u v) →
      AdjI n sim t u v := by
    rintro u v ⟨hne, hu, hv, hs⟩
    rcases Nat.lt_or_ge u v with h | h
    · exact Or.inl ⟨h, hv, hs⟩
    · refine Or.inr ⟨lt_of_le_of_ne h (Ne.symm hne), hu, ?_⟩
      rw [hsym v u]
      exact hs
  have hstepSymm : Symmetric (fun u v => u ≠ v ∧ u < n ∧ v < n ∧ t ≤ sim u v) := by
    rintro u v ⟨hne, hu, hv, hs⟩
    refine ⟨Ne.symm hne, hv, hu, ?_⟩
    rw [hsym v u]
    exact hs
  constructor
  · intro h
    induction h with
    | rel x y hxy => exact Relation.ReflTransGen.single (hAS x y hxy)
    | refl x => exact Relation.ReflTransGen.refl
    | symm x y _ ih => exact Relation.ReflTransGen.symmetric hstepSymm ih
    | trans x y z _ _ ih1 ih2 => exact Relation.ReflTransGen.trans ih1 ih2
  · intro h
    induction h with
    | refl => exact Relation.EqvGen.refl i
    | tail _ hstep ih =>
      exact Relation.EqvGen.trans _ _ _ ih
        (Relation.EqvGen.rel _ _ (hSA _ _ hstep))

/-- **C1.** For every batch size `n`, every symmetric similarity matrix and
every threshold `t`, the index-level Grouper output is a partition of the
indices `0..n-1` into connected components: clusters are nonempty, contain
only indices `< n`, cover every index `< n`, are pairwise disjoint, and two
indices lie in the same cluster iff there is a path `i = k0, ..., km = j`
whose consecutive pairwise similarities all reach `t` (transitive closure,
not only direct similarity). -/
theorem cluster_groups_partition (n : Nat) (sim : Nat → Nat → ℚ) (t : ℚ)
    (hsym : ∀ u v, sim u v = sim v u) :
    (∀ g ∈ cluster_groups n sim t, g ≠ []) ∧
    (∀ g ∈ cluster_groups n sim t, ∀ i ∈ g, i < n) ∧
    (∀ i, i < n → ∃ g ∈ cluster_groups n sim t, i ∈ g) ∧
    List.Pairwise (fun g h => ∀ x ∈ g, x ∉ h) (cluster_groups n sim t) ∧
    (∀ g ∈ cluster_groups n sim t, ∀ i ∈ g, ∀ j, j < n →
       (j ∈ g ↔ SimPath n sim t i j)) := by
  obtain ⟨h1, h2, h3, h4, h5⟩ := cluster_groups_core n sim t
  refine ⟨h1, h2, h3, h4, fun g hg i hig j hj => ?_⟩
  rw [h5 g hg i hig j, eqvGen_adjI_iff_simPath n sim t hsym i j]
  exact and_iff_right hj

theorem cluster_groups_partition_witness :
    (∀ u v, (fun u v : Nat => if u + v = 1 then (1 : ℚ) else 0) u v =
        (fun u v : Nat => if u + v = 1 then (1 : ℚ) else 0) v u) ∧
    ((∀ g ∈ cluster_groups 3 (fun u v => if u + v = 1 then (1 : ℚ) else 0) 1,
        g ≠ []) ∧
     (∀ g ∈ cluster_groups 3 (fun u v => if u + v = 1 then (1 : ℚ) else 0) 1,
        ∀ i ∈ g, i < 3) ∧
     (∀ i, i < 3 →
        ∃ g ∈ cluster_groups 3 (fun u v => if u + v = 1 then (1 : ℚ) else 0) 1,
          i ∈ g) ∧
     List.Pairwise (fun g h => ∀ x ∈ g, x ∉ h)
       (cluster_groups 3 (fun u v => if u + v = 1 then (1 : ℚ) else 0) 1) ∧
     (∀ g ∈ cluster_groups 3 (fun u v => if u + v = 1 then (1 : ℚ) else 0) 1,
        ∀ i ∈ g, ∀ j, j < 3 →
          (j ∈ g ↔ SimPath 3 (fun u v => if u + v = 1 then (1 : ℚ) else 0) 1 i j))) :=
  have hsym : ∀ u v, (fun u v : Nat => if u + v = 1 then (1 : ℚ) else 0) u v =
      (fun u v : Nat => if u + v = 1 then (1 : ℚ) else 0) v u := by
    intro u v
    simp only [Nat.add_comm u v]
  ⟨hsym, cluster_groups_partition 3 (fun u v => if u + v = 1 then (1 : ℚ) else 0) 1 hsym⟩

/-- **C6.** Threshold monotonicity: for a fixed batch size and fixed
similarity matrix, if `t1 ≤ t2` then the index-level partition at `t2`
refines the partition at `t1` — every cluster produced at the higher
threshold is contained in some cluster produced at the lower one. -/
theorem threshold_refines (n : Nat) (sim : Nat → Nat → ℚ) (t1 t2 : ℚ)
    (h12 : t1 ≤ t2) :
    ∀ g2 ∈ cluster_groups n sim t2, ∃ g1 ∈ cluster_groups n sim t1,
      ∀ i ∈ g2, i ∈ g1 := by
  obtain ⟨hne2, hlt2, _, _, hiff2⟩ := cluster_groups_core n sim t2
  obtain ⟨_, _, hcov1, _, hiff1⟩ := cluster_groups_core n sim t1
  intro g2 hg2
  obtain ⟨i, hi⟩ := List.exists_mem_of_ne_nil g2 (hne2 g2 hg2)
  obtain ⟨g1, hg1, hig1⟩ := hcov1 i (hlt2 g2 hg2 i hi)
  refine ⟨g1, hg1, fun j hj => ?_⟩
  obtain ⟨hjn, hEq⟩ := (hiff2 g2 hg2 i hi j).mp hj
  have hmono : ∀ u v, AdjI n sim t2 u v → AdjI n sim t1 u v := by
    rintro u v (⟨h1, h2, h3⟩ | ⟨h1, h2, h3⟩)
    · exact Or.inl ⟨h1, h2, le_trans h12 h3⟩
    · exact Or.inr ⟨h1, h2, le_trans h12 h3⟩
  exact (hiff1 g1 hg1 i hig1 j).mpr ⟨hjn, Relation.EqvGen.mono hmono hEq⟩

theorem threshold_refines_witness :
    (0 : ℚ) ≤ 1 ∧
    (∀ g2 ∈ cluster_groups 3 (fun u v => if u < v then (1 : ℚ) else 0) 1,
       ∃ g1 ∈ cluster_groups 3 (fun u v => if u < v then (1 : ℚ) else 0) 0,
         ∀ i ∈ g2, i ∈ g1) :=
  ⟨by norm_num,
   threshold_refines 3 (fun u v => if u < v then (1 : ℚ) else 0) 0 1 (by norm_num)⟩

/-- **C2** (corrected). A batch of size 0 returns no clusters (the empty
list, not one cluster) without reaching the vectorizer; a batch of size 1
returns exactly one cluster holding the item, but the control flow reaches
the `TfidfVectorizer` whenever the item's built story text is non-empty —
the vectorizer is skipped only when every built text is empty. -/
theorem small_batch_clusters :
    (∀ (sim : Nat → Nat → ℚ) (t : ℚ), cluster_items [] sim t = []) ∧
    vectorizer_invoked [] = false ∧
    (∀ (it : Item) (sim : Nat → Nat → ℚ) (t : ℚ),
       cluster_items [it] sim t = [[it]]) ∧
    (∀ it : Item,
       vectorizer_invoked [it] = !decide (_build_story_text it = "")) := by
  refine ⟨fun sim t => rfl, rfl, ?_, ?_⟩
  · intro it sim t
    unfold cluster_items
    rw [if_neg (by simp)]
    by_cases h : _build_story_text it = ""
    · rw [if_pos (by simp [h])]
      rfl
    · rw [if_neg (by simp [h])]
      rfl
  · intro it
    show (!(([it] : List Item) = [] : Bool) &&
      !decide (∀ s ∈ [it].map _build_story_text, s = "")) = _
    have h1 : (([it] : List Item) = [] : Bool) = false := by
      simp
    rw [h1]
    have h2 : decide (∀ s ∈ [it].map _build_story_text, s = "") =
        decide (_build_story_text it = "") := by
      apply decide_eq_decide.mpr
      simp
    rw [h2]
    rw [Bool.not_false, Bool.true_and]

theorem small_batch_invokes_vectorizer :
    (cluster_items [] (fun _ _ => 0) 0).length = 0 ∧
    vectorizer_invoked [({ title := some "a" } : Item)] = true := by
  constructor
  · rfl
  · decide

end Briefing
